import Mathlib

/-!
Verification of the geometric detection pipeline of the FlyffBot repository.

The Python sources are shallowly embedded in Lean:
  * machine floats become exact rationals (ℚ) where the code only performs
    field arithmetic and comparisons, and real numbers (ℝ) where the code
    calls transcendental functions (arccos, arctan2);
  * the Python builtin int() applied to a nonnegative or negative float is
    truncation toward zero, embedded as pytrunc;
  * comparisons of Euclidean distances sqrt d < r are embedded by the exact
    equivalence 0 < r ∧ d < r^2 (both sides of the original comparison are
    reals, sqrt d is nonnegative, and squaring is monotone);
  * calls into OpenCV (template correlation grids, convex hulls, contour
    lists from findContours) are inputs of the embedded functions, since the
    library is an external collaborator of the pipeline.
-/

/-- Truncation of a rational toward zero, mirroring the Python builtin
int() applied to a float value. -/
def pytrunc (q : ℚ) : ℤ := Int.tdiv q.num q.den

theorem pytrunc_intCast (z : ℤ) : pytrunc (z : ℚ) = z := by
  simp [pytrunc, Rat.num_intCast, Rat.den_intCast, Int.tdiv_one]

/-- Truncation agrees with the floor function on nonnegative rationals
(the only inputs the compass and centroid formulas receive). -/
theorem pytrunc_eq_floor_of_nonneg (q : ℚ) (hq : 0 ≤ q) : pytrunc q = ⌊q⌋ := by
  have hnum : 0 ≤ q.num := Rat.num_nonneg.mpr hq
  rw [pytrunc, Int.tdiv_eq_ediv hnum (by positivity),
    ← Rat.floor_intCast_div_natCast, Rat.num_div_den]

/-! ## Proximity merge (src/map/detect_map_points.py, MapPointDetector) -/

/-- Detected point, mirroring the Point dataclass of detect_map_points.py. -/
structure MPoint where
  x : ℤ
  y : ℤ
  color_type : String
  radius : ℚ
deriving DecidableEq, Repr, Inhabited

/-- Squared Euclidean distance between two detected points. -/
def mpDistSq (p q : MPoint) : ℤ := (p.x - q.x) ^ 2 + (p.y - q.y) ^ 2

/-- Strict distance test of merge_overlapping_points:
sqrt ((x1-x2)^2 + (y1-y2)^2) < merge_distance, expressed exactly through
squares (a nonnegative square root is below r iff 0 < r and the radicand is
below r^2). -/
def withinMergeDistance (r : ℚ) (p q : MPoint) : Bool :=
  decide (0 < r ∧ ((mpDistSq p q : ℚ) < r ^ 2))

/-- Star clusters built by the loop of merge_overlapping_points: the first
unused point seeds a cluster and absorbs every later unused point within
merge_distance of the seed. -/
def starClusters (r : ℚ) : List MPoint → List (List MPoint)
  | [] => []
  | p :: rest =>
    (p :: rest.filter (fun q => withinMergeDistance r p q))
      :: starClusters r (rest.filter (fun q => ¬ withinMergeDistance r p q))
  termination_by l => l.length
  decreasing_by
    simp only [List.length_cons]
    exact Nat.lt_succ_of_le (List.length_filter_le _ _)

/-- Synthetic point emitted for one cluster by merge_overlapping_points:
coordinates are the Python-int truncated means, the color type comes from
the first member (the seed), and the radius is the mean of all member
radii. -/
def collapseCluster (cl : List MPoint) : MPoint :=
  let n : ℚ := cl.length
  { x := pytrunc ((cl.map (fun a => (a.x : ℚ))).sum / n)
    y := pytrunc ((cl.map (fun a => (a.y : ℚ))).sum / n)
    color_type := cl.headI.color_type
    radius := (cl.map MPoint.radius).sum / n }

/-- Body of MapPointDetector.merge_overlapping_points: the used-set loop of
the source is embedded as the equivalent filter recursion over the yet
unprocessed suffix. -/
def mergeLoop (r : ℚ) : List MPoint → List MPoint
  | [] => []
  | p :: rest =>
    collapseCluster (p :: rest.filter (fun q => withinMergeDistance r p q))
      :: mergeLoop r (rest.filter (fun q => ¬ withinMergeDistance r p q))
  termination_by l => l.length
  decreasing_by
    simp only [List.length_cons]
    exact Nat.lt_succ_of_le (List.length_filter_le _ _)

/-- MapPointDetector.merge_overlapping_points, including the early return
for lists of at most one point. The merge distance is a parameter (the
source reads the configured self.merge_distance). -/
def mergeOverlappingPoints (r : ℚ) (points : List MPoint) : List MPoint :=
  if points.length ≤ 1 then points else mergeLoop r points

theorem mergeLoop_eq_clusters (r : ℚ) :
    ∀ (n : ℕ) (l : List MPoint), l.length ≤ n →
      mergeLoop r l = (starClusters r l).map collapseCluster := by
  intro n
  induction n with
  | zero =>
    intro l h
    have : l = [] := List.length_eq_zero.mp (Nat.le_zero.mp h)
    subst this
    simp [mergeLoop, starClusters]
  | succ n ih =>
    intro l h
    cases l with
    | nil => simp [mergeLoop, starClusters]
    | cons p rest =>
      rw [mergeLoop, starClusters]
      simp only [List.map_cons]
      refine congrArg _ (ih _ ?_)
      exact le_trans (List.length_filter_le _ _) (Nat.le_of_succ_le_succ h)

theorem collapseCluster_single (p : MPoint) : collapseCluster [p] = p := by
  simp [collapseCluster, pytrunc_intCast]

theorem mergeOverlappingPoints_eq_clusters (r : ℚ) (points : List MPoint) :
    mergeOverlappingPoints r points
      = (starClusters r points).map collapseCluster := by
  rw [mergeOverlappingPoints]
  split
  · rename_i h
    interval_cases hl : points.length
    · have : points = [] := List.length_eq_zero.mp hl
      subst this; simp [starClusters]
    · obtain ⟨p, rest, rfl⟩ : ∃ p rest, points = p :: rest := by
        cases points with
        | nil => simp at hl
        | cons a t => exact ⟨a, t, rfl⟩
      have : rest = [] := by
        have := congrArg (fun n => n - 1) hl
        simpa [List.length_eq_zero] using this
      subst this
      simp [starClusters, collapseCluster_single]
  · exact mergeLoop_eq_clusters r points.length points le_rfl

theorem starClusters_sound (r : ℚ) :
    ∀ (n : ℕ) (l : List MPoint), l.length ≤ n →
      ∀ cl ∈ starClusters r l,
        cl ≠ [] ∧ ∀ q ∈ cl.tail, withinMergeDistance r cl.headI q := by
  intro n
  induction n with
  | zero =>
    intro l h
    have : l = [] := List.length_eq_zero.mp (Nat.le_zero.mp h)
    subst this
    simp [starClusters]
  | succ n ih =>
    intro l h cl hcl
    cases l with
    | nil => simp [starClusters] at hcl
    | cons p rest =>
      rw [starClusters] at hcl
      rcases List.mem_cons.mp hcl with hfirst | hrest
      · subst hfirst
        refine ⟨by simp, ?_⟩
        intro q hq
        simp only [List.headI_cons, List.tail_cons] at *
        exact (List.mem_filter.mp hq).2
      · exact ih _ (le_trans (List.length_filter_le _ _) (Nat.le_of_succ_le_succ h))
          cl hrest

/-- C2. Corrected form. For every list of point candidates and every merge
radius, merge_overlapping_points emits exactly one synthetic candidate per
star cluster (clusters are nonempty and every non-seed member lies within
the merge distance of the seed); the synthetic centroid is the Python-int
truncated mean of the member centroids; the color type is copied from the
seed, while the radius is recomputed as the mean of the member radii (it is
not copied from the seed). Two candidates at (10,10) and (12,11) with
radius 5 collapse to one candidate centered at (11,10). -/
theorem merge_emits_one_candidate_per_cluster (r : ℚ) (points : List MPoint) :
    mergeOverlappingPoints r points
        = (starClusters r points).map collapseCluster
      ∧ (∀ cl ∈ starClusters r points,
          cl ≠ [] ∧ ∀ q ∈ cl.tail, withinMergeDistance r cl.headI q)
      ∧ (∀ cl, collapseCluster cl
          = { x := pytrunc ((cl.map (fun a => (a.x : ℚ))).sum / (cl.length : ℚ))
              y := pytrunc ((cl.map (fun a => (a.y : ℚ))).sum / (cl.length : ℚ))
              color_type := cl.headI.color_type
              radius := (cl.map MPoint.radius).sum / (cl.length : ℚ) })
      ∧ mergeOverlappingPoints 5 [⟨10, 10, "a", 2⟩, ⟨12, 11, "b", 4⟩]
          = [⟨11, 10, "a", 3⟩] := by
  refine ⟨mergeOverlappingPoints_eq_clusters r points,
    starClusters_sound r points.length points le_rfl, fun cl => rfl, ?_⟩
  norm_num [mergeOverlappingPoints, mergeLoop, withinMergeDistance, mpDistSq,
    collapseCluster, pytrunc, List.filter]
  all_goals decide

theorem merge_emits_one_candidate_per_cluster_witness :
    ([⟨10, 10, "a", 2⟩, ⟨12, 11, "b", 4⟩] : List MPoint)
        ∈ starClusters 5 [⟨10, 10, "a", 2⟩, ⟨12, 11, "b", 4⟩]
      ∧ (([⟨10, 10, "a", 2⟩, ⟨12, 11, "b", 4⟩] : List MPoint) ≠ []
          ∧ ∀ q ∈ ([⟨10, 10, "a", 2⟩, ⟨12, 11, "b", 4⟩] : List MPoint).tail,
              withinMergeDistance 5
                ([⟨10, 10, "a", 2⟩, ⟨12, 11, "b", 4⟩] : List MPoint).headI q) := by
  have hmem : ([⟨10, 10, "a", 2⟩, ⟨12, 11, "b", 4⟩] : List MPoint)
      ∈ starClusters 5 [⟨10, 10, "a", 2⟩, ⟨12, 11, "b", 4⟩] := by
    rw [starClusters]
    norm_num [withinMergeDistance, mpDistSq, List.filter]
  exact ⟨hmem,
    (merge_emits_one_candidate_per_cluster 5
      [⟨10, 10, "a", 2⟩, ⟨12, 11, "b", 4⟩]).2.1 _ hmem⟩

/-- C2. Counterexample to the claim as stated: merging the two candidates
at (10,10) and (12,11) with radius 5 emits radius 3, the mean of the member
radii 2 and 4, rather than copying the seed radius 2 unchanged. -/
theorem merge_recomputes_radius_counterexample :
    (mergeOverlappingPoints 5 [⟨10, 10, "a", 2⟩, ⟨12, 11, "b", 4⟩]).map
        MPoint.radius = [3]
      ∧ ([⟨10, 10, "a", 2⟩, ⟨12, 11, "b", 4⟩] : List MPoint).headI.radius = 2
      ∧ (3 : ℚ) ≠ 2 := by
  refine ⟨?_, rfl, by norm_num⟩
  norm_num [mergeOverlappingPoints, mergeLoop, withinMergeDistance, mpDistSq,
    collapseCluster, pytrunc, List.filter]

/-- C8. Corrected form. Proximity merge leaves a list unchanged whenever no
two of its points are within the merge distance of one another; on such
lists it is trivially idempotent. It is not idempotent in general (see the
counterexample): the emitted centroids of two adjacent clusters can end up
within the merge distance of each other, so a second pass can collapse
them further. -/
theorem merge_fixes_spread_lists (r : ℚ) (points : List MPoint)
    (h : points.Pairwise (fun p q => withinMergeDistance r p q = false)) :
    mergeOverlappingPoints r points = points := by
  have main : ∀ l : List MPoint,
      l.Pairwise (fun p q => withinMergeDistance r p q = false) →
        mergeLoop r l = l := by
    intro l
    induction l with
    | nil => intro _; simp [mergeLoop]
    | cons p rest ih =>
      intro hl
      rcases List.pairwise_cons.mp hl with ⟨hp, hrest⟩
      rw [mergeLoop]
      have hnear : rest.filter (fun q => withinMergeDistance r p q) = [] :=
        List.filter_eq_nil_iff.mpr (fun q hq => by simp [hp q hq])
      have hfar : rest.filter (fun q => ¬ withinMergeDistance r p q) = rest :=
        List.filter_eq_self.mpr (fun q hq => by simp [hp q hq])
      rw [hnear, hfar, collapseCluster_single, ih hrest]
  rw [mergeOverlappingPoints]
  split
  · rfl
  · exact main points h

theorem merge_fixes_spread_lists_witness :
    ([⟨0, 0, "a", 1⟩, ⟨20, 0, "a", 1⟩] : List MPoint).Pairwise
        (fun p q => withinMergeDistance 10 p q = false)
      ∧ mergeOverlappingPoints 10 [⟨0, 0, "a", 1⟩, ⟨20, 0, "a", 1⟩]
          = [⟨0, 0, "a", 1⟩, ⟨20, 0, "a", 1⟩] := by
  have h : ([⟨0, 0, "a", 1⟩, ⟨20, 0, "a", 1⟩] : List MPoint).Pairwise
      (fun p q => withinMergeDistance 10 p q = false) := by decide
  exact ⟨h, merge_fixes_spread_lists 10 _ h⟩

/-- C8. Counterexample to idempotence as claimed: on the four collinear
points (0,0), (9,0), (9,0), (10,0) with merge distance 10 the first pass
emits centroids (6,0) and (10,0), which lie within distance 10 of each
other, so a second pass with the same radius collapses them to (8,0). -/
theorem merge_not_idempotent_counterexample :
    mergeOverlappingPoints 10 (mergeOverlappingPoints 10
        [⟨0, 0, "a", 1⟩, ⟨9, 0, "a", 1⟩, ⟨9, 0, "a", 1⟩, ⟨10, 0, "a", 1⟩])
      ≠ mergeOverlappingPoints 10
        [⟨0, 0, "a", 1⟩, ⟨9, 0, "a", 1⟩, ⟨9, 0, "a", 1⟩, ⟨10, 0, "a", 1⟩] := by
  have h1 : mergeOverlappingPoints 10
      [⟨0, 0, "a", 1⟩, ⟨9, 0, "a", 1⟩, ⟨9, 0, "a", 1⟩, ⟨10, 0, "a", 1⟩]
        = [⟨6, 0, "a", 1⟩, ⟨10, 0, "a", 1⟩] := by
    norm_num [mergeOverlappingPoints, mergeLoop, withinMergeDistance, mpDistSq,
      collapseCluster, pytrunc, List.filter]
  have h2 : mergeOverlappingPoints 10 [⟨6, 0, "a", 1⟩, ⟨10, 0, "a", 1⟩]
      = [⟨8, 0, "a", 1⟩] := by
    norm_num [mergeOverlappingPoints, mergeLoop, withinMergeDistance, mpDistSq,
      collapseCluster, pytrunc, List.filter]
  rw [h1, h2]
  decide

/-! ## Compass labels (src/opencv/test_arrow.py, ArrowDetector.angle_to_cardinal) -/

/-- Eight compass labels in the order used by angle_to_cardinal. -/
def cardinalDirections : List String :=
  ["N", "NE", "E", "SE", "S", "SW", "W", "NW"]

/-- ArrowDetector.angle_to_cardinal: index = int((angle + 22.5) / 45) % 8,
then directions[index]. The Python int() is truncation toward zero and the
Python % on integers matches Int.emod; the list lookup is embedded with a
default that is never reached because the index is always in [0, 8). -/
def angleToCardinal (angle : ℚ) : String :=
  cardinalDirections.getD ((pytrunc ((angle + 45 / 2) / 45)) % 8).toNat "N"

/-- C5. For every angle in [0, 360) the compass label equals the element of
[N, NE, E, SE, S, SW, W, NW] at index floor((angle + 22.5) / 45) mod 8; in
particular 0 maps to N, 44 to NE, 90 to E and 359 to N. -/
theorem angle_to_cardinal_formula :
    (∀ a : ℚ, 0 ≤ a → a < 360 →
        angleToCardinal a
          = cardinalDirections.getD ((⌊(a + 45 / 2) / 45⌋ % 8).toNat) "N")
      ∧ angleToCardinal 0 = "N"
      ∧ angleToCardinal 44 = "NE"
      ∧ angleToCardinal 90 = "E"
      ∧ angleToCardinal 359 = "N" := by
  refine ⟨?_, ?_, ?_, ?_, ?_⟩
  · intro a ha _
    rw [angleToCardinal, pytrunc_eq_floor_of_nonneg _ (by positivity)]
  all_goals
    norm_num [angleToCardinal, pytrunc, cardinalDirections]
    decide

theorem angle_to_cardinal_formula_witness :
    ((0 : ℚ) ≤ 100 ∧ (100 : ℚ) < 360)
      ∧ angleToCardinal 100
          = cardinalDirections.getD ((⌊((100 : ℚ) + 45 / 2) / 45⌋ % 8).toNat) "N" := by
  refine ⟨⟨by norm_num, by norm_num⟩, ?_⟩
  exact angle_to_cardinal_formula.1 100 (by norm_num) (by norm_num)

/-! ## Greedy score NMS (src/opencv/test_template.py, nms_boxes, and
src/opencv/test_map.py, TemplateMonsterDetector._nms) -/

/-- Axis-aligned box in corner form [x1, y1, x2, y2], the element type of
the boxes array handed to nms_boxes. -/
structure TBox where
  x1 : ℚ
  y1 : ℚ
  x2 : ℚ
  y2 : ℚ
deriving DecidableEq, Repr, Inhabited

/-- Box area with the +1 pixel convention of nms_boxes:
(x2 - x1 + 1) * (y2 - y1 + 1). -/
def boxArea (b : TBox) : ℚ := (b.x2 - b.x1 + 1) * (b.y2 - b.y1 + 1)

/-- Intersection area of two boxes with the same +1 pixel convention,
clamped at zero exactly as nms_boxes clamps w and h with maximum(0, .). -/
def interArea (a b : TBox) : ℚ :=
  max 0 (min a.x2 b.x2 - max a.x1 b.x1 + 1)
    * max 0 (min a.y2 b.y2 - max a.y1 b.y1 + 1)

/-- Suppression criterion actually used by nms_boxes: intersection area
divided by the area of the other box (areas[order[1:]]), not by the union
area. -/
def nmsOverlap (a b : TBox) : ℚ := interArea a b / boxArea b

/-- Intersection over union of two boxes, the quantity named by the spec
(ratio of overlap area to union area). -/
def iou (a b : TBox) : ℚ :=
  interArea a b / (boxArea a + boxArea b - interArea a b)

/-- Index order produced by scores.argsort()[::-1]: indices sorted by
ascending score, then reversed. The numpy default sort is not stable, so
the tie order is unspecified there; a concrete stable sort is used here,
which only matters for ties. -/
def argsortDesc (scores : List ℚ) : List ℕ :=
  ((List.range scores.length).insertionSort
      (fun i j => scores.getD i 0 ≤ scores.getD j 0)).reverse

/-- While loop of nms_boxes: keep the first index of the remaining order,
then drop every later index whose overlap with it exceeds the threshold
(indices with overlap <= threshold survive). -/
def nmsKeepLoop (boxes : List TBox) (thr : ℚ) : List ℕ → List ℕ
  | [] => []
  | i :: rest =>
    i :: nmsKeepLoop boxes thr (rest.filter (fun j =>
      decide (nmsOverlap (boxes.getD i default) (boxes.getD j default) ≤ thr)))
  termination_by l => l.length
  decreasing_by
    simp only [List.length_cons]
    exact Nat.lt_succ_of_le (List.length_filter_le _ _)

/-- TemplateMatchDebugger.nms_boxes: returns the kept indices into the
boxes and scores arrays. -/
def nmsBoxes (boxes : List TBox) (scores : List ℚ) (thr : ℚ) : List ℕ :=
  if boxes.length = 0 then [] else nmsKeepLoop boxes thr (argsortDesc scores)

theorem nmsKeepLoop_sublist (boxes : List TBox) (thr : ℚ) :
    ∀ (n : ℕ) (l : List ℕ), l.length ≤ n →
      (nmsKeepLoop boxes thr l).Sublist l := by
  intro n
  induction n with
  | zero =>
    intro l h
    have : l = [] := List.length_eq_zero.mp (Nat.le_zero.mp h)
    subst this
    simp [nmsKeepLoop]
  | succ n ih =>
    intro l h
    cases l with
    | nil => simp [nmsKeepLoop]
    | cons i rest =>
      rw [nmsKeepLoop]
      refine List.Sublist.cons₂ i ?_
      exact ((ih _ (le_trans (List.length_filter_le _ _)
        (Nat.le_of_succ_le_succ h))).trans (List.filter_sublist rest))

theorem nmsKeepLoop_pairwise (boxes : List TBox) (thr : ℚ) :
    ∀ (n : ℕ) (l : List ℕ), l.length ≤ n →
      (nmsKeepLoop boxes thr l).Pairwise (fun i j =>
        nmsOverlap (boxes.getD i default) (boxes.getD j default) ≤ thr) := by
  intro n
  induction n with
  | zero =>
    intro l h
    have : l = [] := List.length_eq_zero.mp (Nat.le_zero.mp h)
    subst this
    simp [nmsKeepLoop]
  | succ n ih =>
    intro l h
    cases l with
    | nil => simp [nmsKeepLoop]
    | cons i rest =>
      rw [nmsKeepLoop]
      have hlen : (rest.filter (fun j =>
          decide (nmsOverlap (boxes.getD i default) (boxes.getD j default) ≤ thr))).length
            ≤ n :=
        le_trans (List.length_filter_le _ _) (Nat.le_of_succ_le_succ h)
      refine List.pairwise_cons.mpr ⟨?_, ih _ hlen⟩
      intro j hj
      have hj2 := (nmsKeepLoop_sublist boxes thr _ _ le_rfl).subset hj
      have := (List.mem_filter.mp hj2).2
      simpa using this

theorem boxArea_pos {b : TBox} (hb : b.x1 ≤ b.x2 ∧ b.y1 ≤ b.y2) :
    0 < boxArea b := by
  rcases hb with ⟨h1, h2⟩
  have : (0 : ℚ) < b.x2 - b.x1 + 1 := by linarith
  have : (0 : ℚ) < b.y2 - b.y1 + 1 := by linarith
  rw [boxArea]
  positivity

theorem interArea_nonneg (a b : TBox) : 0 ≤ interArea a b :=
  mul_nonneg (le_max_left _ _) (le_max_left _ _)

theorem interArea_le_left {a : TBox} (b : TBox) (ha : a.x1 ≤ a.x2 ∧ a.y1 ≤ a.y2) :
    interArea a b ≤ boxArea a := by
  rcases ha with ⟨h1, h2⟩
  have hx : max 0 (min a.x2 b.x2 - max a.x1 b.x1 + 1) ≤ a.x2 - a.x1 + 1 := by
    rcases max_cases (0:ℚ) (min a.x2 b.x2 - max a.x1 b.x1 + 1) with ⟨he, _⟩ | ⟨he, _⟩ <;>
      rw [he]
    · linarith
    · have hmin : min a.x2 b.x2 ≤ a.x2 := min_le_left _ _
      have hmax : a.x1 ≤ max a.x1 b.x1 := le_max_left _ _
      linarith
  have hy : max 0 (min a.y2 b.y2 - max a.y1 b.y1 + 1) ≤ a.y2 - a.y1 + 1 := by
    rcases max_cases (0:ℚ) (min a.y2 b.y2 - max a.y1 b.y1 + 1) with ⟨he, _⟩ | ⟨he, _⟩ <;>
      rw [he]
    · linarith
    · have hmin : min a.y2 b.y2 ≤ a.y2 := min_le_left _ _
      have hmax : a.y1 ≤ max a.y1 b.y1 := le_max_left _ _
      linarith
  exact mul_le_mul hx hy (le_max_left _ _) (by linarith)

/-- Intersection over union never exceeds intersection over the area of
either box, so the stricter criterion of nms_boxes implies the IoU bound. -/
theorem iou_le_nmsOverlap {a b : TBox} (ha : a.x1 ≤ a.x2 ∧ a.y1 ≤ a.y2)
    (hb : b.x1 ≤ b.x2 ∧ b.y1 ≤ b.y2) : iou a b ≤ nmsOverlap a b := by
  have hI : 0 ≤ interArea a b := interArea_nonneg a b
  have hB : 0 < boxArea b := boxArea_pos hb
  have hIA : interArea a b ≤ boxArea a := interArea_le_left b ha
  have hU : boxArea b ≤ boxArea a + boxArea b - interArea a b := by linarith
  exact div_le_div_of_nonneg_left hI hB hU

theorem interArea_comm (a b : TBox) : interArea a b = interArea b a := by
  rw [interArea, interArea, min_comm a.x2 b.x2, max_comm a.x1 b.x1,
    min_comm a.y2 b.y2, max_comm a.y1 b.y1]

theorem iou_comm (a b : TBox) : iou a b = iou b a := by
  rw [iou, iou, interArea_comm, add_comm]

theorem argsortDesc_perm (scores : List ℚ) :
    (argsortDesc scores).Perm (List.range scores.length) :=
  (List.reverse_perm _).trans (List.perm_insertionSort _ _)

theorem argsortDesc_head_max (scores : List ℚ) (i : ℕ)
    (h : (argsortDesc scores).head? = some i) :
    ∀ j < scores.length, scores.getD j 0 ≤ scores.getD i 0 := by
  haveI ht : IsTotal ℕ (fun i j => scores.getD i 0 ≤ scores.getD j 0) :=
    ⟨fun a b => le_total _ _⟩
  haveI htr : IsTrans ℕ (fun i j => scores.getD i 0 ≤ scores.getD j 0) :=
    ⟨fun a b c hab hbc => le_trans hab hbc⟩
  have hsorted : (argsortDesc scores).Sorted
      (fun i j => scores.getD j 0 ≤ scores.getD i 0) := by
    rw [argsortDesc, List.Sorted, List.pairwise_reverse]
    exact List.sorted_insertionSort _ _
  intro j hj
  have hjmem : j ∈ argsortDesc scores :=
    (argsortDesc_perm scores).mem_iff.mpr (List.mem_range.mpr hj)
  cases hl : argsortDesc scores with
  | nil => rw [hl] at h; simp at h
  | cons a tail =>
    rw [hl] at h hjmem hsorted
    simp only [List.head?_cons, Option.some_inj] at h
    subst h
    rcases List.mem_cons.mp hjmem with rfl | htl
    · exact le_refl _
    · exact List.rel_of_sorted_cons hsorted j htl

/-- C1. Corrected form. The suppression criterion of nms_boxes is the
intersection area divided by the area of the later (lower-ranked) box,
which dominates intersection-over-union; consequently no two indices kept
by nms_boxes have IoU exceeding the threshold, and the first kept index
always carries a maximal score. The distance-based _nms of test_map.py
does not enjoy the IoU bound (see the counterexample). -/
theorem nms_boxes_pairwise_iou (boxes : List TBox) (scores : List ℚ) (thr : ℚ)
    (hwf : ∀ b ∈ boxes, b.x1 ≤ b.x2 ∧ b.y1 ≤ b.y2)
    (hlen : scores.length = boxes.length) :
    (∀ i ∈ nmsBoxes boxes scores thr, ∀ j ∈ nmsBoxes boxes scores thr, i ≠ j →
        iou (boxes.getD i default) (boxes.getD j default) ≤ thr)
      ∧ (∀ i, (nmsBoxes boxes scores thr).head? = some i →
          ∀ j < scores.length, scores.getD j 0 ≤ scores.getD i 0) := by
  constructor
  · intro i hi j hj hij
    rw [nmsBoxes] at hi hj
    by_cases hz : boxes.length = 0
    · simp [hz] at hi
    · rw [if_neg hz] at hi hj
      have hsub : (nmsKeepLoop boxes thr (argsortDesc scores)).Sublist
          (argsortDesc scores) := nmsKeepLoop_sublist boxes thr _ _ le_rfl
      have hmemrange : ∀ k ∈ nmsKeepLoop boxes thr (argsortDesc scores),
          k < boxes.length := by
        intro k hk
        have : k ∈ List.range scores.length :=
          (argsortDesc_perm scores).subset (hsub.subset hk)
        rw [List.mem_range] at this
        omega
      have hwfk : ∀ k ∈ nmsKeepLoop boxes thr (argsortDesc scores),
          (boxes.getD k default).x1 ≤ (boxes.getD k default).x2
            ∧ (boxes.getD k default).y1 ≤ (boxes.getD k default).y2 := by
        intro k hk
        have hklt : k < boxes.length := hmemrange k hk
        have : boxes.getD k default ∈ boxes := by
          rw [List.getD_eq_getElem?_getD, List.getElem?_eq_getElem hklt]
          exact List.getElem_mem hklt
        exact hwf _ this
      have hpw := nmsKeepLoop_pairwise boxes thr _ (argsortDesc scores) le_rfl
      have hpwiou : (nmsKeepLoop boxes thr (argsortDesc scores)).Pairwise
          (fun a b => iou (boxes.getD a default) (boxes.getD b default) ≤ thr) := by
        refine hpw.imp_of_mem ?_
        intro a b hma hmb hab
        exact le_trans (iou_le_nmsOverlap (hwfk a hma) (hwfk b hmb)) hab
      have hsymm : Symmetric
          (fun a b => iou (boxes.getD a default) (boxes.getD b default) ≤ thr) := by
        intro a b hab
        rw [iou_comm]
        exact hab
      exact hpwiou.forall hsymm hi hj hij
  · intro i hi
    rw [nmsBoxes] at hi
    by_cases hz : boxes.length = 0
    · simp [hz] at hi
    · rw [if_neg hz] at hi
      cases hl : argsortDesc scores with
      | nil => rw [hl] at hi; simp [nmsKeepLoop] at hi
      | cons a tail =>
        rw [hl, nmsKeepLoop] at hi
        simp only [List.head?_cons, Option.some_inj] at hi
        refine argsortDesc_head_max scores i ?_
        rw [hl, List.head?_cons, hi]

theorem nms_boxes_pairwise_iou_witness :
    ((∀ b ∈ ([⟨0, 0, 9, 9⟩, ⟨20, 0, 29, 9⟩] : List TBox),
          b.x1 ≤ b.x2 ∧ b.y1 ≤ b.y2)
        ∧ ([(1 : ℚ), 1 / 2] : List ℚ).length
            = ([⟨0, 0, 9, 9⟩, ⟨20, 0, 29, 9⟩] : List TBox).length)
      ∧ (∀ i ∈ nmsBoxes [⟨0, 0, 9, 9⟩, ⟨20, 0, 29, 9⟩] [1, 1 / 2] (1 / 2),
          ∀ j ∈ nmsBoxes [⟨0, 0, 9, 9⟩, ⟨20, 0, 29, 9⟩] [1, 1 / 2] (1 / 2),
            i ≠ j →
              iou (([⟨0, 0, 9, 9⟩, ⟨20, 0, 29, 9⟩] : List TBox).getD i default)
                  (([⟨0, 0, 9, 9⟩, ⟨20, 0, 29, 9⟩] : List TBox).getD j default)
                ≤ 1 / 2) := by
  have hwf : ∀ b ∈ ([⟨0, 0, 9, 9⟩, ⟨20, 0, 29, 9⟩] : List TBox),
      b.x1 ≤ b.x2 ∧ b.y1 ≤ b.y2 := by
    intro b hb
    rcases List.mem_cons.mp hb with rfl | hb
    · constructor <;> norm_num
    · rcases List.mem_cons.mp hb with rfl | hb
      · constructor <;> norm_num
      · simp at hb
  exact ⟨⟨hwf, rfl⟩,
    (nms_boxes_pairwise_iou [⟨0, 0, 9, 9⟩, ⟨20, 0, 29, 9⟩] [1, 1 / 2] (1 / 2)
      hwf rfl).1⟩

/-- Template-match record of TemplateMonsterDetector: center position,
width and height at the matched scale, score and scale. -/
structure MMatch where
  x : ℤ
  y : ℤ
  w : ℤ
  h : ℤ
  score : ℚ
  scale : ℚ
deriving DecidableEq, Repr, Inhabited

/-- TemplateMonsterDetector._is_overlapping: the two matches count as
overlapping iff the distance of their centers is below
(w1 + w2) / 2 * threshold. The square-root comparison is embedded exactly
through squares as before. -/
def mmatchIsOverlapping (m1 m2 : MMatch) (thr : ℚ) : Bool :=
  decide (0 < ((m1.w + m2.w : ℤ) : ℚ) / 2 * thr
    ∧ (((m1.x - m2.x) ^ 2 + (m1.y - m2.y) ^ 2 : ℤ) : ℚ)
        < (((m1.w + m2.w : ℤ) : ℚ) / 2 * thr) ^ 2)

/-- While loop of TemplateMonsterDetector._nms: pop the best remaining
match, keep it, drop the remaining matches overlapping with it. -/
def nmsMapLoop (thr : ℚ) : List MMatch → List MMatch
  | [] => []
  | current :: rest =>
    current :: nmsMapLoop thr
      (rest.filter (fun m => ¬ mmatchIsOverlapping current m thr))
  termination_by l => l.length
  decreasing_by
    simp only [List.length_cons]
    exact Nat.lt_succ_of_le (List.length_filter_le _ _)

/-- TemplateMonsterDetector._nms: sort by score descending, then run the
suppression loop. -/
def nmsMap (ms : List MMatch) (thr : ℚ) : List MMatch :=
  nmsMapLoop thr (ms.insertionSort (fun a b => b.score ≤ a.score))

/-- Corner-form bounding box of a center-based match record. -/
def mmatchBox (m : MMatch) : TBox :=
  ⟨(m.x : ℚ) - (m.w : ℚ) / 2, (m.y : ℚ) - (m.h : ℚ) / 2,
    (m.x : ℚ) + (m.w : ℚ) / 2, (m.y : ℚ) + (m.h : ℚ) / 2⟩

/-- C1. Counterexample to the claim as stated: the _nms of test_map.py is
one of the named suppression routines, its criterion is a center-distance
test, and on two 10x10 matches centered at (0,0) and (4,0) with threshold
0.3 it keeps both even though their bounding boxes have IoU 7/15 > 0.3. -/
theorem nms_map_keeps_high_iou_counterexample :
    nmsMap [⟨0, 0, 10, 10, 1, 1⟩, ⟨4, 0, 10, 10, 9 / 10, 1⟩] (3 / 10)
        = [⟨0, 0, 10, 10, 1, 1⟩, ⟨4, 0, 10, 10, 9 / 10, 1⟩]
      ∧ (3 : ℚ) / 10
          < iou (mmatchBox ⟨0, 0, 10, 10, 1, 1⟩)
              (mmatchBox ⟨4, 0, 10, 10, 9 / 10, 1⟩) := by
  constructor
  · norm_num [nmsMap, nmsMapLoop, mmatchIsOverlapping, List.insertionSort,
      List.orderedInsert, List.filter]
  · norm_num [iou, mmatchBox, interArea, boxArea]

/-! ## Multi-scale template search (src/opencv/test_template.py,
TemplateMatchDebugger.match_template_multiscale). Calls into
cv2.matchTemplate are modelled as an oracle from scale to an optional
correlation grid (none embeds the cv2.error branch that the source catches
and skips); wall-clock readings of time.time() - start_time are modelled
as an explicit stream of elapsed times consumed at the two places the
source samples the clock. The embedding fixes resize_factor = 1.0, so the
coordinate rescaling branch guarded by resize_factor < 1.0 is absent. -/

/-- Match record collected by match_template_multiscale: position, scaled
template size, raw correlation score and scale. -/
structure TMatch where
  x : ℕ
  y : ℕ
  w : ℤ
  h : ℤ
  score : ℚ
  scale : ℚ
deriving DecidableEq, Repr, Inhabited

/-- Corner-form box [x, y, x + w, y + h] stored with each match. -/
def tmatchBox (m : TMatch) : TBox :=
  ⟨(m.x : ℚ), (m.y : ℚ), (m.x : ℚ) + (m.w : ℚ), (m.y : ℚ) + (m.h : ℚ)⟩

/-- Threshold test of the collection loop: score >= threshold for higher
is better metrics, score <= threshold for the sum-of-squared-difference
family. -/
def passThreshold (hib : Bool) (thr v : ℚ) : Bool :=
  if hib then decide (thr ≤ v) else decide (v ≤ thr)

/-- Collection of all matches of one correlation grid: every (x, y) whose
value passes the threshold yields a record storing the raw grid value as
its score, in the row-major order of np.where. -/
def collectMatches (grid : List (List ℚ)) (hib : Bool) (thr s : ℚ)
    (sw sh : ℤ) : List TMatch :=
  (grid.enum.map (fun row =>
    (row.2.enum.filter (fun cell => passThreshold hib thr cell.2)).map
      (fun cell => TMatch.mk cell.1 row.1 sw sh cell.2 s))).flatten

/-- Scale loop of match_template_multiscale with its two timeout checks:
one before the correlation at each scale and one directly after it, both
of the form time.time() - start_time > timeout. On a timeout the loop
stops and reports the matches accumulated so far with the flag set. -/
def scanScales (grids : ℚ → Option (List (List ℚ))) (t : ℕ → ℚ)
    (timeout : ℚ) (tw th imgW imgH : ℕ) (hib : Bool) (thr : ℚ) :
    List ℚ → ℕ → List TMatch → List TMatch × Bool
  | [], _, acc => (acc, false)
  | s :: rest, k, acc =>
    if timeout < t k then (acc, true)
    else
      let sw := pytrunc ((tw : ℚ) * s)
      let sh := pytrunc ((th : ℚ) * s)
      if sw < 3 ∨ sh < 3 then
        scanScales grids t timeout tw th imgW imgH hib thr rest (k + 1) acc
      else if (imgW : ℤ) < sw ∨ (imgH : ℤ) < sh then
        scanScales grids t timeout tw th imgW imgH hib thr rest (k + 1) acc
      else
        match grids s with
        | none => scanScales grids t timeout tw th imgW imgH hib thr rest (k + 1) acc
        | some g =>
          if timeout < t (k + 1) then (acc, true)
          else
            scanScales grids t timeout tw th imgW imgH hib thr rest (k + 2)
              (acc ++ collectMatches g hib thr s sw sh)

/-- Reference collection of the same scale loop with the two timeout
checks removed: the matches of every scanned scale. -/
def scanNoTimeout (grids : ℚ → Option (List (List ℚ)))
    (tw th imgW imgH : ℕ) (hib : Bool) (thr : ℚ) : List ℚ → List TMatch
  | [] => []
  | s :: rest =>
    let sw := pytrunc ((tw : ℚ) * s)
    let sh := pytrunc ((th : ℚ) * s)
    if sw < 3 ∨ sh < 3 then
      scanNoTimeout grids tw th imgW imgH hib thr rest
    else if (imgW : ℤ) < sw ∨ (imgH : ℤ) < sh then
      scanNoTimeout grids tw th imgW imgH hib thr rest
    else
      match grids s with
      | none => scanNoTimeout grids tw th imgW imgH hib thr rest
      | some g =>
        collectMatches g hib thr s sw sh
          ++ scanNoTimeout grids tw th imgW imgH hib thr rest

/-- Score list built for the NMS branch of match_template_multiscale:
scores = [m.score if is_higher_better else -m.score for m in all_matches].
Only this transient list is negated; the score stored in each record stays
the raw metric value. -/
def nmsScoreList (hib : Bool) (ms : List TMatch) : List ℚ :=
  ms.map (fun m => if hib then m.score else -m.score)

/-- Result processing of match_template_multiscale (lines 216 to 248):
0 = NMS over the boxes with the possibly negated score list, 1 = single
best match (max for higher is better, min otherwise, first winner on
ties), 2 = top N by raw score, otherwise all matches. -/
def processResults (rm : ℕ) (hib : Bool) (nmsThr : ℚ) (topN : ℕ)
    (ms : List TMatch) : List TMatch :=
  if rm = 0 then
    if ms.length = 0 then []
    else
      (nmsBoxes (ms.map tmatchBox) (nmsScoreList hib ms) nmsThr).map
        (fun i => ms.getD i default)
  else if rm = 1 then
    match ms with
    | [] => []
    | m0 :: rest =>
      [rest.foldl (fun b m =>
        if hib then (if b.score < m.score then m else b)
        else (if m.score < b.score then m else b)) m0]
  else if rm = 2 then
    (if hib then ms.insertionSort (fun a b => b.score ≤ a.score)
     else ms.insertionSort (fun a b => a.score ≤ b.score)).take topN
  else ms

/-- TemplateMatchDebugger.match_template_multiscale: run the scale loop,
then apply the configured result processing, and always return the pair of
the processed matches and the timeout flag. -/
def matchTemplateMultiscale (grids : ℚ → Option (List (List ℚ)))
    (t : ℕ → ℚ) (timeout : ℚ) (tw th imgW imgH : ℕ) (hib : Bool)
    (thr : ℚ) (rm topN : ℕ) (nmsThr : ℚ) (scales : List ℚ) :
    List TMatch × Bool :=
  let r := scanScales grids t timeout tw th imgW imgH hib thr scales 0 []
  (processResults rm hib nmsThr topN r.1, r.2)

theorem scanScales_no_timeout (grids : ℚ → Option (List (List ℚ)))
    (t : ℕ → ℚ) (timeout : ℚ) (tw th imgW imgH : ℕ) (hib : Bool) (thr : ℚ)
    (h : ∀ i, t i ≤ timeout) :
    ∀ (scales : List ℚ) (k : ℕ) (acc : List TMatch),
      scanScales grids t timeout tw th imgW imgH hib thr scales k acc
        = (acc ++ scanNoTimeout grids tw th imgW imgH hib thr scales, false) := by
  intro scales
  induction scales with
  | nil => intro k acc; simp [scanScales, scanNoTimeout]
  | cons s rest ih =>
    intro k acc
    rw [scanScales, scanNoTimeout]
    rw [if_neg (not_lt.mpr (h k))]
    by_cases hsmall : pytrunc ((tw : ℚ) * s) < 3 ∨ pytrunc ((th : ℚ) * s) < 3
    · rw [if_pos hsmall, if_pos hsmall, ih]
    · rw [if_neg hsmall, if_neg hsmall]
      by_cases hbig : (imgW : ℤ) < pytrunc ((tw : ℚ) * s)
          ∨ (imgH : ℤ) < pytrunc ((th : ℚ) * s)
      · rw [if_pos hbig, if_pos hbig, ih]
      · rw [if_neg hbig, if_neg hbig]
        cases hg : grids s with
        | none => simp only [hg]; rw [ih]
        | some g =>
          simp only [hg]
          rw [if_neg (not_lt.mpr (h (k + 1))), ih]
          simp [List.append_assoc]

theorem scanScales_timeout_prefix (grids : ℚ → Option (List (List ℚ)))
    (t : ℕ → ℚ) (timeout : ℚ) (tw th imgW imgH : ℕ) (hib : Bool) (thr : ℚ) :
    ∀ (scales : List ℚ) (k : ℕ) (acc : List TMatch),
      (scanScales grids t timeout tw th imgW imgH hib thr scales k acc).2 = true →
        ∃ j < scales.length,
          (scanScales grids t timeout tw th imgW imgH hib thr scales k acc).1
            = acc ++ scanNoTimeout grids tw th imgW imgH hib thr (scales.take j) := by
  intro scales
  induction scales with
  | nil => intro k acc hflag; rw [scanScales] at hflag; simp at hflag
  | cons s rest ih =>
    intro k acc hflag
    rw [scanScales] at hflag ⊢
    by_cases h0 : timeout < t k
    · rw [if_pos h0] at hflag ⊢
      exact ⟨0, by simp, by simp [scanNoTimeout]⟩
    · rw [if_neg h0] at hflag ⊢
      by_cases hsmall : pytrunc ((tw : ℚ) * s) < 3 ∨ pytrunc ((th : ℚ) * s) < 3
      · rw [if_pos hsmall] at hflag ⊢
        obtain ⟨j, hj, hpre⟩ := ih (k + 1) acc hflag
        refine ⟨j + 1, by simpa using hj, ?_⟩
        rw [hpre, List.take_succ_cons, scanNoTimeout, if_pos hsmall]
      · rw [if_neg hsmall] at hflag ⊢
        by_cases hbig : (imgW : ℤ) < pytrunc ((tw : ℚ) * s)
            ∨ (imgH : ℤ) < pytrunc ((th : ℚ) * s)
        · rw [if_pos hbig] at hflag ⊢
          obtain ⟨j, hj, hpre⟩ := ih (k + 1) acc hflag
          refine ⟨j + 1, by simpa using hj, ?_⟩
          rw [hpre, List.take_succ_cons, scanNoTimeout, if_neg hsmall, if_pos hbig]
        · rw [if_neg hbig] at hflag ⊢
          cases hg : grids s with
          | none =>
            simp only [hg] at hflag ⊢
            obtain ⟨j, hj, hpre⟩ := ih (k + 1) acc hflag
            refine ⟨j + 1, by simpa using hj, ?_⟩
            rw [hpre, List.take_succ_cons, scanNoTimeout, if_neg hsmall,
              if_neg hbig]
            simp only [hg]
          | some g =>
            simp only [hg] at hflag ⊢
            by_cases h1 : timeout < t (k + 1)
            · rw [if_pos h1] at hflag ⊢
              exact ⟨0, by simp, by simp [scanNoTimeout]⟩
            · rw [if_neg h1] at hflag ⊢
              obtain ⟨j, hj, hpre⟩ := ih (k + 2) _ hflag
              refine ⟨j + 1, by simpa using hj, ?_⟩
              rw [hpre, List.take_succ_cons, scanNoTimeout, if_neg hsmall,
                if_neg hbig]
              simp only [hg]
              simp [List.append_assoc]

/-- C3. When a timeout check observes an elapsed time exceeding the
budget, the scale loop stops scanning the remaining scales and returns the
matches collected from a proper prefix of the scale list together with the
early-termination flag set to true; when the clock never exceeds the
budget, the full scan result is returned with the flag false; an elapsed
time above the budget at the very first check yields no matches and the
flag; and match_template_multiscale always returns the processed matches
paired with that flag (the timeout is surfaced as data, never as an
exception; both checks sit between correlations, never inside one). -/
theorem multiscale_timeout_partial_results
    (grids : ℚ → Option (List (List ℚ))) (t : ℕ → ℚ) (timeout : ℚ)
    (tw th imgW imgH : ℕ) (hib : Bool) (thr : ℚ) (rm topN : ℕ)
    (nmsThr : ℚ) (scales : List ℚ) :
    ((∀ i, t i ≤ timeout) →
        scanScales grids t timeout tw th imgW imgH hib thr scales 0 []
          = (scanNoTimeout grids tw th imgW imgH hib thr scales, false))
      ∧ ((scanScales grids t timeout tw th imgW imgH hib thr scales 0 []).2
            = true →
          ∃ j < scales.length,
            (scanScales grids t timeout tw th imgW imgH hib thr scales 0 []).1
              = scanNoTimeout grids tw th imgW imgH hib thr (scales.take j))
      ∧ (∀ s rest, scales = s :: rest → timeout < t 0 →
          scanScales grids t timeout tw th imgW imgH hib thr scales 0 []
            = ([], true))
      ∧ matchTemplateMultiscale grids t timeout tw th imgW imgH hib thr
            rm topN nmsThr scales
          = (processResults rm hib nmsThr topN
              (scanScales grids t timeout tw th imgW imgH hib thr scales 0 []).1,
            (scanScales grids t timeout tw th imgW imgH hib thr scales 0 []).2) := by
  refine ⟨?_, ?_, ?_, rfl⟩
  · intro h
    rw [scanScales_no_timeout grids t timeout tw th imgW imgH hib thr h]
    simp
  · intro hflag
    obtain ⟨j, hj, hpre⟩ :=
      scanScales_timeout_prefix grids t timeout tw th imgW imgH hib thr
        scales 0 [] hflag
    exact ⟨j, hj, by simpa using hpre⟩
  · intro s rest hs h0
    subst hs
    rw [scanScales, if_pos h0]

theorem multiscale_timeout_partial_results_witness :
    ((1 : ℚ) < (fun _ : ℕ => (2 : ℚ)) 0
        ∧ ([(1 : ℚ)] : List ℚ) = 1 :: [])
      ∧ scanScales (fun _ => none) (fun _ => 2) 1 10 10 100 100 true (1 / 2)
          [1] 0 [] = ([], true) := by
  refine ⟨⟨by norm_num, rfl⟩, ?_⟩
  exact (multiscale_timeout_partial_results (fun _ => none) (fun _ => 2) 1
    10 10 100 100 true (1 / 2) 0 5 (3 / 10) [1]).2.2.1 1 [] rfl (by norm_num)

theorem nmsScoreList_getD_neg (ms : List TMatch) (j : ℕ) (hj : j < ms.length) :
    (nmsScoreList false ms).getD j 0 = -(ms.getD j default).score := by
  simp [nmsScoreList, List.getD_eq_getElem?_getD, List.getElem?_map,
    List.getElem?_eq_getElem hj]

/-- C4. Corrected form. The score stored in every match record is the raw
metric value (collectMatches copies the grid value unchanged); for the
sum-of-squared-difference family only the transient score list handed to
the NMS is negated, which makes the NMS sort uniformly treat higher as
better: with a lower-is-better metric the first match kept by the NMS
branch carries a minimal raw stored score among all matches. -/
theorem nms_scores_inverted_only_for_sorting (ms : List TMatch)
    (nmsThr : ℚ) (topN : ℕ) (hne : ms ≠ []) :
    (∀ l : List TMatch,
        nmsScoreList false l = l.map (fun m => -m.score)
          ∧ nmsScoreList true l = l.map TMatch.score)
      ∧ ∃ m, (processResults 0 false nmsThr topN ms).head? = some m
          ∧ m ∈ ms ∧ ∀ m2 ∈ ms, m.score ≤ m2.score := by
  constructor
  · intro l
    constructor <;> simp [nmsScoreList]
  · have hlen0 : ¬ ms.length = 0 := by
      simpa [List.length_eq_zero] using hne
    rw [processResults.eq_def]
    simp only [if_pos rfl, if_neg hlen0]
    have hblen : ¬ (ms.map tmatchBox).length = 0 := by
      simpa [List.length_map, List.length_eq_zero] using hne
    rw [nmsBoxes, if_neg hblen]
    have hslen : (nmsScoreList false ms).length = ms.length := by
      simp [nmsScoreList]
    have halen : (argsortDesc (nmsScoreList false ms)).length = ms.length := by
      rw [(argsortDesc_perm (nmsScoreList false ms)).length_eq]
      simp [hslen]
    obtain ⟨a, tail, heq⟩ : ∃ a tail,
        argsortDesc (nmsScoreList false ms) = a :: tail := by
      cases hl : argsortDesc (nmsScoreList false ms) with
      | nil => rw [hl] at halen; simp at halen; omega
      | cons a tail => exact ⟨a, tail, rfl⟩
    rw [heq, nmsKeepLoop]
    refine ⟨ms.getD a default, by simp, ?_, ?_⟩
    · have ha : a < ms.length := by
        have : a ∈ argsortDesc (nmsScoreList false ms) := by
          rw [heq]; exact List.mem_cons_self a tail
        have := (argsortDesc_perm (nmsScoreList false ms)).subset this
        rw [List.mem_range, hslen] at this
        exact this
      rw [List.getD_eq_getElem?_getD, List.getElem?_eq_getElem ha]
      exact List.getElem_mem ha
    · intro m2 hm2
      obtain ⟨j, hj, hjm⟩ := List.mem_iff_getElem.mp hm2
      have hmax := argsortDesc_head_max (nmsScoreList false ms) a
        (by rw [heq, List.head?_cons]) j (by rw [hslen]; exact hj)
      have ha : a < ms.length := by
        have : a ∈ argsortDesc (nmsScoreList false ms) := by
          rw [heq]; exact List.mem_cons_self a tail
        have := (argsortDesc_perm (nmsScoreList false ms)).subset this
        rw [List.mem_range, hslen] at this
        exact this
      rw [nmsScoreList_getD_neg ms j hj, nmsScoreList_getD_neg ms a ha] at hmax
      have hj2 : ms.getD j default = m2 := by
        rw [List.getD_eq_getElem?_getD, List.getElem?_eq_getElem hj, hjm]
        rfl
      rw [hj2] at hmax
      linarith

theorem nms_scores_inverted_only_for_sorting_witness :
    (([⟨0, 0, 5, 5, 2 / 5, 1⟩, ⟨1, 0, 5, 5, 1 / 10, 1⟩] : List TMatch) ≠ [])
      ∧ ∃ m, (processResults 0 false (3 / 10) 5
            [⟨0, 0, 5, 5, 2 / 5, 1⟩, ⟨1, 0, 5, 5, 1 / 10, 1⟩]).head? = some m
          ∧ m ∈ ([⟨0, 0, 5, 5, 2 / 5, 1⟩, ⟨1, 0, 5, 5, 1 / 10, 1⟩] : List TMatch)
          ∧ ∀ m2 ∈ ([⟨0, 0, 5, 5, 2 / 5, 1⟩, ⟨1, 0, 5, 5, 1 / 10, 1⟩] : List TMatch),
              m.score ≤ m2.score := by
  have hne : ([⟨0, 0, 5, 5, 2 / 5, 1⟩, ⟨1, 0, 5, 5, 1 / 10, 1⟩] : List TMatch)
      ≠ [] := by simp
  exact ⟨hne,
    (nms_scores_inverted_only_for_sorting _ (3 / 10) 5 hne).2⟩

/-- C4. Counterexample to the claim as stated: with the lower-is-better
metric flag the collection loop stores the raw grid values 1/10 and 2/5 in
the match records, not their inverted (negated) values, so the stored
score field is still on the lower-is-better scale. -/
theorem stored_scores_stay_raw_counterexample :
    (collectMatches [[1 / 10, 2 / 5]] false (1 / 2) 1 5 5).map TMatch.score
        = [1 / 10, 2 / 5]
      ∧ (collectMatches [[1 / 10, 2 / 5]] false (1 / 2) 1 5 5).map TMatch.score
          ≠ [-(1 / 10), -(2 / 5)] := by
  have h : (collectMatches [[1 / 10, 2 / 5]] false (1 / 2) 1 5 5).map
      TMatch.score = [1 / 10, 2 / 5] := by
    norm_num [collectMatches, passThreshold, List.enum, List.enumFrom,
      List.filter]
  refine ⟨h, ?_⟩
  rw [h]
  intro hcontra
  simp only [List.cons.injEq] at hcontra
  norm_num at hcontra

/-! ## Arrow orientation (src/opencv/test_arrow.py, HSVArrowDetector).
Contours are lists of integer pixel points, as produced by
cv2.findContours; the convex hull handed to the hull-based strategy is a
function input (cv2.convexHull is an external collaborator). Contour
moments are embedded with the Green-theorem polygon formulas that
cv2.moments evaluates on a contour. -/

/-- Integer pixel point of a contour. -/
abbrev IPoint := ℤ × ℤ

/-- Signed doubled polygon area of a closed contour (the shoelace sum over
cyclically adjacent point pairs). -/
def shoelaceZ (c : List IPoint) : ℤ :=
  ((c.zip (c.rotate 1)).map (fun pq => pq.1.1 * pq.2.2 - pq.2.1 * pq.1.2)).sum

/-- Spatial moment m00 of a contour, the signed polygon area. -/
def m00Q (c : List IPoint) : ℚ := (shoelaceZ c : ℚ) / 2

/-- Spatial moment m10 of a contour polygon. -/
def m10Q (c : List IPoint) : ℚ :=
  (((c.zip (c.rotate 1)).map (fun pq =>
    (pq.1.1 + pq.2.1) * (pq.1.1 * pq.2.2 - pq.2.1 * pq.1.2))).sum : ℤ) / 6

/-- Spatial moment m01 of a contour polygon. -/
def m01Q (c : List IPoint) : ℚ :=
  (((c.zip (c.rotate 1)).map (fun pq =>
    (pq.1.2 + pq.2.2) * (pq.1.1 * pq.2.2 - pq.2.1 * pq.1.2))).sum : ℤ) / 6

/-- cv2.contourArea of a contour: the absolute polygon area. -/
def contourArea (c : List IPoint) : ℚ := |(shoelaceZ c : ℚ)| / 2

/-- Centroid abscissa cx = m10 / m00 (kept as an exact rational where the
orientation code keeps a float). -/
def cxOf (c : List IPoint) : ℚ := m10Q c / m00Q c

/-- Centroid ordinate cy = m01 / m00. -/
def cyOf (c : List IPoint) : ℚ := m01Q c / m00Q c

/-- Vector difference of two integer points. -/
def vsub (a b : IPoint) : IPoint := (a.1 - b.1, a.2 - b.2)

/-- Dot product of two integer vectors. -/
def idot (u v : IPoint) : ℤ := u.1 * v.1 + u.2 * v.2

/-- Cross product (z component) of two integer vectors. -/
def icross (u v : IPoint) : ℤ := u.1 * v.2 - u.2 * v.1

/-- Squared Euclidean norm of an integer vector. -/
def inormSq (u : IPoint) : ℤ := u.1 ^ 2 + u.2 ^ 2

/-- np.arctan2 in degrees: the argument of the complex number x + y i,
which lies in (-pi, pi] exactly like the numpy convention, scaled to
degrees. -/
noncomputable def atan2Deg (y x : ℝ) : ℝ :=
  Complex.arg ⟨x, y⟩ * (180 / Real.pi)

/-- Python float modulo by 360 (result in [0, 360) for the positive
modulus used by the source). -/
noncomputable def fmod360 (x : ℝ) : ℝ := x - 360 * ⌊x / 360⌋

/-- Heading from the centroid (cx, cy) to a tip point, converted from math
convention to the game compass convention: (90 - degrees(arctan2(dy, dx)))
mod 360. -/
noncomputable def gameAngleFrom (cx cy : ℚ) (p : IPoint) : ℝ :=
  fmod360 (90 - atan2Deg ((p.2 : ℝ) - (cy : ℝ)) ((p.1 : ℝ) - (cx : ℝ)))

/-- np.clip of the cosine into [-1, 1]. -/
noncomputable def clipCos (c : ℝ) : ℝ := min 1 (max (-1) c)

/-- Cosine of the interior angle at p2 between its hull neighbors p1 and
p3: dot(v1, v2) / (norm(v1) * norm(v2)). -/
noncomputable def interiorCos (p1 p2 p3 : IPoint) : ℝ :=
  ((idot (vsub p1 p2) (vsub p3 p2) : ℤ) : ℝ)
    / (Real.sqrt ((inormSq (vsub p1 p2) : ℤ) : ℝ)
        * Real.sqrt ((inormSq (vsub p3 p2) : ℤ) : ℝ))

/-- Interior angle in degrees at a hull vertex:
np.degrees(np.arccos(np.clip(cos, -1, 1))). -/
noncomputable def interiorAngleDeg (p1 p2 p3 : IPoint) : ℝ :=
  Real.arccos (clipCos (interiorCos p1 p2 p3)) * (180 / Real.pi)

/-- Previous hull point of index i with the Python wraparound
hull_points[i - 1] (index -1 is the last point). -/
def hullP1 (hull : List IPoint) (i : ℕ) : IPoint :=
  hull.getD ((i + hull.length - 1) % hull.length) (0, 0)

/-- Hull point at index i. -/
def hullP2 (hull : List IPoint) (i : ℕ) : IPoint := hull.getD i (0, 0)

/-- Next hull point of index i with the wraparound (i + 1) % n. -/
def hullP3 (hull : List IPoint) (i : ℕ) : IPoint :=
  hull.getD ((i + 1) % hull.length) (0, 0)

/-- Validity of a hull vertex for the interior-angle loop: both neighbor
vectors have nonzero length (the source skips the vertex when either
np.linalg.norm is 0, and the norm of an integer vector vanishes iff its
squared norm does). -/
def validAt (hull : List IPoint) (i : ℕ) : Prop :=
  inormSq (vsub (hullP1 hull i) (hullP2 hull i)) ≠ 0
    ∧ inormSq (vsub (hullP3 hull i) (hullP2 hull i)) ≠ 0

instance (hull : List IPoint) (i : ℕ) : Decidable (validAt hull i) := by
  unfold validAt
  infer_instance

/-- Interior angle at hull vertex i between its cyclic neighbors. -/
noncomputable def angleAt (hull : List IPoint) (i : ℕ) : ℝ :=
  interiorAngleDeg (hullP1 hull i) (hullP2 hull i) (hullP3 hull i)

/-- One step of the minimum-interior-angle loop: skip vertices with a
zero-length neighbor vector, otherwise keep the sharpest angle seen so far
together with its vertex (strict comparison, first winner on ties; the
initial min_angle of the source is infinity, embedded as the none state). -/
noncomputable def minAngleStep (hull : List IPoint)
    (st : Option (ℝ × IPoint)) (i : ℕ) : Option (ℝ × IPoint) :=
  if validAt hull i then
    match st with
    | none => some (angleAt hull i, hullP2 hull i)
    | some (m, tp) =>
      if angleAt hull i < m then some (angleAt hull i, hullP2 hull i)
      else some (m, tp)
  else st

/-- Minimum-interior-angle scan over all hull vertices. -/
noncomputable def minAngleFold (hull : List IPoint) : Option (ℝ × IPoint) :=
  (List.range hull.length).foldl (minAngleStep hull) none

/-- Squared distance of a hull point from the centroid. -/
def distSqQ (cx cy : ℚ) (p : IPoint) : ℚ :=
  ((p.1 : ℚ) - cx) ^ 2 + ((p.2 : ℚ) - cy) ^ 2

/-- One step of the furthest-point loop of _direction_furthest_point. The
source compares square roots against a running maximum starting at 0; the
embedding compares the squares, which is equivalent since the square root
is strictly monotone on nonnegative arguments, and keeps the none state
for the tip_point = None start. -/
def furthestStep (cx cy : ℚ) (st : Option (ℚ × IPoint)) (p : IPoint) :
    Option (ℚ × IPoint) :=
  match st with
  | none => if 0 < distSqQ cx cy p then some (distSqQ cx cy p, p) else none
  | some (md, tp) =>
    if md < distSqQ cx cy p then some (distSqQ cx cy p, p) else some (md, tp)

/-- Furthest hull point from the centroid (none when every hull point
coincides with the centroid, mirroring tip_point staying None). -/
def furthestTip (hull : List IPoint) (cx cy : ℚ) : Option IPoint :=
  (hull.foldl (furthestStep cx cy) none).map Prod.snd

/-- HSVArrowDetector._direction_furthest_point on the hull of the contour
(the hull, computed by cv2.convexHull in the source, is a function
input). -/
noncomputable def dirFurthestPoint (hull : List IPoint) (cx cy : ℚ) :
    Option ℝ :=
  (furthestTip hull cx cy).map (gameAngleFrom cx cy)

/-- HSVArrowDetector._direction_convex_hull. The defectsOk flag embeds the
try around cv2.convexityDefects, whose except branch falls back to the
furthest-point heuristic (the defects value itself is never used by the
source afterwards). -/
noncomputable def dirConvexHull (contour hull : List IPoint)
    (defectsOk : Bool) : Option ℝ :=
  if m00Q contour = 0 then none
  else if hull.length < 3 then none
  else if defectsOk = false then
    dirFurthestPoint hull (cxOf contour) (cyOf contour)
  else
    match minAngleFold hull with
    | none => dirFurthestPoint hull (cxOf contour) (cyOf contour)
    | some (m, tip) =>
      if 120 < m then dirFurthestPoint hull (cxOf contour) (cyOf contour)
      else some (gameAngleFrom (cxOf contour) (cyOf contour) tip)

/-- Principal eigenvector of the symmetric 2x2 covariance matrix
[[a, b], [b, c]]. For b = 0 the matrix is diagonal and np.argmax picks the
first maximal eigenvalue, giving the corresponding standard basis vector;
for b /= 0 the eigenvector (b, lambda - a) of the larger eigenvalue is
used (the LAPACK normalization and sign are unspecified, and the sign
only shifts the PCA heading by the 180 degrees ambiguity the source itself
documents). -/
noncomputable def eigMainAxis (a b c : ℚ) : ℝ × ℝ :=
  if b = 0 then (if c ≤ a then (1, 0) else (0, 1))
  else
    (((b : ℚ) : ℝ),
      (((a + c : ℚ) : ℝ) + Real.sqrt (((a - c) ^ 2 + 4 * b ^ 2 : ℚ) : ℝ)) / 2
        - ((a : ℚ) : ℝ))

/-- HSVArrowDetector._direction_pca: mean and ddof-1 covariance of the
contour points, principal axis, then the compass conversion. The source
has no degenerate-input guard and always returns an angle. -/
noncomputable def dirPCA (contour : List IPoint) : Option ℝ :=
  let n : ℚ := contour.length
  let mx := (contour.map (fun p => (p.1 : ℚ))).sum / n
  let my := (contour.map (fun p => (p.2 : ℚ))).sum / n
  let covA := (contour.map (fun p => ((p.1 : ℚ) - mx) ^ 2)).sum / (n - 1)
  let covB := (contour.map (fun p =>
    ((p.1 : ℚ) - mx) * ((p.2 : ℚ) - my))).sum / (n - 1)
  let covC := (contour.map (fun p => ((p.2 : ℚ) - my) ^ 2)).sum / (n - 1)
  let ax := eigMainAxis covA covB covC
  some (fmod360 (90 - atan2Deg ax.2 ax.1))

theorem minAngleStep_valid_none (hull : List IPoint) (i : ℕ)
    (hv : validAt hull i) :
    minAngleStep hull none i = some (angleAt hull i, hullP2 hull i) := by
  rw [minAngleStep.eq_def, if_pos hv]

theorem minAngleStep_valid_some (hull : List IPoint) (i : ℕ) (m : ℝ)
    (tp : IPoint) (hv : validAt hull i) :
    minAngleStep hull (some (m, tp)) i
      = if angleAt hull i < m then some (angleAt hull i, hullP2 hull i)
        else some (m, tp) := by
  rw [minAngleStep.eq_def, if_pos hv]

theorem minAngleStep_invalid (hull : List IPoint) (i : ℕ)
    (st : Option (ℝ × IPoint)) (hv : ¬ validAt hull i) :
    minAngleStep hull st i = st := by
  rw [minAngleStep.eq_def, if_neg hv]

theorem minAngleGo_none (hull : List IPoint) :
    ∀ (idxs : List ℕ) (st : Option (ℝ × IPoint)),
      idxs.foldl (minAngleStep hull) st = none →
        st = none ∧ ∀ i ∈ idxs, ¬ validAt hull i := by
  intro idxs
  induction idxs with
  | nil => intro st h; exact ⟨h, by simp⟩
  | cons i idxs ih =>
    intro st h
    rw [List.foldl_cons] at h
    obtain ⟨hst, hall⟩ := ih _ h
    by_cases hv : validAt hull i
    · exfalso
      cases st with
      | none => rw [minAngleStep_valid_none hull i hv] at hst; simp at hst
      | some p =>
        rcases p with ⟨m, tp⟩
        rw [minAngleStep_valid_some hull i m tp hv] at hst
        split at hst <;> simp at hst
    · rw [minAngleStep_invalid hull i st hv] at hst
      refine ⟨hst, fun j hj => ?_⟩
      rcases List.mem_cons.mp hj with rfl | hj2
      · exact hv
      · exact hall j hj2

theorem minAngleGo_some (hull : List IPoint) :
    ∀ (idxs : List ℕ) (st : Option (ℝ × IPoint)) (m : ℝ) (tp : IPoint),
      idxs.foldl (minAngleStep hull) st = some (m, tp) →
        (st = some (m, tp)
            ∨ ∃ j ∈ idxs, validAt hull j ∧ m = angleAt hull j
                ∧ tp = hullP2 hull j)
          ∧ (∀ i ∈ idxs, validAt hull i → m ≤ angleAt hull i)
          ∧ (∀ m0 tp0, st = some (m0, tp0) → m ≤ m0) := by
  intro idxs
  induction idxs with
  | nil =>
    intro st m tp h
    refine ⟨Or.inl h, by simp, ?_⟩
    intro m0 tp0 h0
    rw [h0] at h
    simp only [List.foldl_nil, Option.some_inj, Prod.mk.injEq] at h
    exact le_of_eq h.1.symm
  | cons i idxs ih =>
    intro st m tp h
    rw [List.foldl_cons] at h
    by_cases hv : validAt hull i
    · cases st with
      | none =>
        rw [minAngleStep_valid_none hull i hv] at h
        obtain ⟨horig, hmin, hmono⟩ := ih _ m tp h
        have hmi : m ≤ angleAt hull i := hmono _ _ rfl
        refine ⟨?_, ?_, ?_⟩
        · rcases horig with heq | ⟨j, hj, hrest⟩
          · simp only [Option.some_inj, Prod.mk.injEq] at heq
            exact Or.inr ⟨i, List.mem_cons_self i idxs, hv, heq.1.symm, heq.2.symm⟩
          · exact Or.inr ⟨j, List.mem_cons_of_mem i hj, hrest⟩
        · intro k hk hkv
          rcases List.mem_cons.mp hk with rfl | hk2
          · exact hmi
          · exact hmin k hk2 hkv
        · intro m0 tp0 h0
          simp at h0
      | some p =>
        rcases p with ⟨m0, tp0⟩
        rw [minAngleStep_valid_some hull i m0 tp0 hv] at h
        by_cases hlt : angleAt hull i < m0
        · rw [if_pos hlt] at h
          obtain ⟨horig, hmin, hmono⟩ := ih _ m tp h
          have hmi : m ≤ angleAt hull i := hmono _ _ rfl
          refine ⟨?_, ?_, ?_⟩
          · rcases horig with heq | ⟨j, hj, hrest⟩
            · simp only [Option.some_inj, Prod.mk.injEq] at heq
              exact Or.inr ⟨i, List.mem_cons_self i idxs, hv, heq.1.symm, heq.2.symm⟩
            · exact Or.inr ⟨j, List.mem_cons_of_mem i hj, hrest⟩
          · intro k hk hkv
            rcases List.mem_cons.mp hk with rfl | hk2
            · exact hmi
            · exact hmin k hk2 hkv
          · intro m1 tp1 h1
            simp only [Option.some_inj, Prod.mk.injEq] at h1
            rw [← h1.1]
            exact le_trans hmi (le_of_lt hlt)
        · rw [if_neg hlt] at h
          obtain ⟨horig, hmin, hmono⟩ := ih _ m tp h
          have hmi0 : m ≤ m0 := hmono _ _ rfl
          refine ⟨?_, ?_, ?_⟩
          · rcases horig with heq | ⟨j, hj, hrest⟩
            · exact Or.inl heq
            · exact Or.inr ⟨j, List.mem_cons_of_mem i hj, hrest⟩
          · intro k hk hkv
            rcases List.mem_cons.mp hk with rfl | hk2
            · exact le_trans hmi0 (not_lt.mp hlt)
            · exact hmin k hk2 hkv
          · intro m1 tp1 h1
            simp only [Option.some_inj, Prod.mk.injEq] at h1
            rw [← h1.1]
            exact hmi0
    · rw [minAngleStep_invalid hull i st hv] at h
      obtain ⟨horig, hmin, hmono⟩ := ih _ m tp h
      refine ⟨?_, ?_, hmono⟩
      · rcases horig with heq | ⟨j, hj, hrest⟩
        · exact Or.inl heq
        · exact Or.inr ⟨j, List.mem_cons_of_mem i hj, hrest⟩
      · intro k hk hkv
        rcases List.mem_cons.mp hk with rfl | hk2
        · exact absurd hkv hv
        · exact hmin k hk2 hkv

theorem distSqQ_nonneg (cx cy : ℚ) (p : IPoint) : 0 ≤ distSqQ cx cy p := by
  rw [distSqQ]
  positivity

theorem furthestGo_some (cx cy : ℚ) :
    ∀ (pts : List IPoint) (st : Option (ℚ × IPoint)) (d : ℚ) (tp : IPoint),
      (∀ d0 tp0, st = some (d0, tp0) → 0 ≤ d0) →
      pts.foldl (furthestStep cx cy) st = some (d, tp) →
        (st = some (d, tp) ∨ (tp ∈ pts ∧ d = distSqQ cx cy tp))
          ∧ 0 ≤ d
          ∧ (∀ u ∈ pts, distSqQ cx cy u ≤ d)
          ∧ (∀ d0 tp0, st = some (d0, tp0) → d0 ≤ d) := by
  intro pts
  induction pts with
  | nil =>
    intro st d tp hst h
    simp only [List.foldl_nil] at h
    refine ⟨Or.inl h, hst d tp h, by simp, ?_⟩
    intro d0 tp0 h0
    rw [h0] at h
    simp only [Option.some_inj, Prod.mk.injEq] at h
    exact le_of_eq h.1
  | cons p pts ih =>
    intro st d tp hst h
    rw [List.foldl_cons] at h
    cases st with
    | none =>
      rw [furthestStep] at h
      by_cases hp : 0 < distSqQ cx cy p
      · rw [if_pos hp] at h
        obtain ⟨horig, hd, hall, hmono⟩ := ih _ d tp
          (by intro d0 tp0 h0; simp only [Option.some_inj, Prod.mk.injEq] at h0
              rw [← h0.1]; exact le_of_lt hp) h
        have hpd : distSqQ cx cy p ≤ d := hmono _ _ rfl
        refine ⟨?_, hd, ?_, by intro d0 tp0 h0; simp at h0⟩
        · rcases horig with heq | ⟨hm, hde⟩
          · simp only [Option.some_inj, Prod.mk.injEq] at heq
            exact Or.inr ⟨by rw [← heq.2]; exact List.mem_cons_self p pts,
              by rw [← heq.1, ← heq.2]⟩
          · exact Or.inr ⟨List.mem_cons_of_mem p hm, hde⟩
        · intro u hu
          rcases List.mem_cons.mp hu with rfl | hu2
          · exact hpd
          · exact hall u hu2
      · rw [if_neg hp] at h
        obtain ⟨horig, hd, hall, _⟩ := ih _ d tp (by intro d0 tp0 h0; simp at h0) h
        refine ⟨?_, hd, ?_, by intro d0 tp0 h0; simp at h0⟩
        · rcases horig with heq | hrest
          · simp at heq
          · exact Or.inr ⟨List.mem_cons_of_mem p hrest.1, hrest.2⟩
        · intro u hu
          rcases List.mem_cons.mp hu with rfl | hu2
          · have : distSqQ cx cy u = 0 :=
              le_antisymm (not_lt.mp hp) (distSqQ_nonneg cx cy u)
            rw [this]
            exact hd
          · exact hall u hu2
    | some q =>
      rcases q with ⟨d0, tp0⟩
      have hd0 : 0 ≤ d0 := hst d0 tp0 rfl
      rw [furthestStep] at h
      by_cases hp : d0 < distSqQ cx cy p
      · rw [if_pos hp] at h
        obtain ⟨horig, hd, hall, hmono⟩ := ih _ d tp
          (by intro d1 tp1 h1; simp only [Option.some_inj, Prod.mk.injEq] at h1
              rw [← h1.1]; exact le_trans hd0 (le_of_lt hp)) h
        have hpd : distSqQ cx cy p ≤ d := hmono _ _ rfl
        refine ⟨?_, hd, ?_, ?_⟩
        · rcases horig with heq | ⟨hm, hde⟩
          · simp only [Option.some_inj, Prod.mk.injEq] at heq
            exact Or.inr ⟨by rw [← heq.2]; exact List.mem_cons_self p pts,
              by rw [← heq.1, ← heq.2]⟩
          · exact Or.inr ⟨List.mem_cons_of_mem p hm, hde⟩
        · intro u hu
          rcases List.mem_cons.mp hu with rfl | hu2
          · exact hpd
          · exact hall u hu2
        · intro d1 tp1 h1
          simp only [Option.some_inj, Prod.mk.injEq] at h1
          rw [← h1.1]
          exact le_trans (le_of_lt hp) hpd
      · rw [if_neg hp] at h
        obtain ⟨horig, hd, hall, hmono⟩ := ih _ d tp
          (by intro d1 tp1 h1; simp only [Option.some_inj, Prod.mk.injEq] at h1
              rw [← h1.1]; exact hd0) h
        have hd0d : d0 ≤ d := hmono _ _ rfl
        refine ⟨?_, hd, ?_, ?_⟩
        · rcases horig with heq | ⟨hm, hde⟩
          · exact Or.inl heq
          · exact Or.inr ⟨List.mem_cons_of_mem p hm, hde⟩
        · intro u hu
          rcases List.mem_cons.mp hu with rfl | hu2
          · exact le_trans (not_lt.mp hp) hd0d
          · exact hall u hu2
        · intro d1 tp1 h1
          simp only [Option.some_inj, Prod.mk.injEq] at h1
          rw [← h1.1]
          exact hd0d

theorem dirFurthestPoint_spec (hull : List IPoint) (cx cy : ℚ) (g : ℝ)
    (h : dirFurthestPoint hull cx cy = some g) :
    ∃ tp ∈ hull, (∀ u ∈ hull, distSqQ cx cy u ≤ distSqQ cx cy tp)
      ∧ g = gameAngleFrom cx cy tp := by
  rw [dirFurthestPoint] at h
  obtain ⟨tp, htp, hg⟩ := Option.map_eq_some'.mp h
  rw [furthestTip] at htp
  obtain ⟨⟨d, tp2⟩, hfold, htp2⟩ := Option.map_eq_some'.mp htp
  simp only at htp2
  rw [htp2] at hfold
  obtain ⟨horig, _, hall, _⟩ := furthestGo_some cx cy hull none d tp
    (by intro d0 tp0 h0; simp at h0) hfold
  rcases horig with heq | ⟨hm, hde⟩
  · simp at heq
  · exact ⟨tp, hm, by rw [← hde]; exact hall, hg.symm⟩

theorem int_sq_eq_three_sq (x y : ℤ) (h : x ^ 2 = 3 * y ^ 2) : y = 0 := by
  by_contra hy
  have h3 : Irrational (Real.sqrt 3) := by
    simpa using (Nat.prime_three).irrational_sqrt
  apply h3
  refine ⟨|(x : ℚ) / (y : ℚ)|, ?_⟩
  have hyR : ((y : ℝ)) ≠ 0 := Int.cast_ne_zero.mpr hy
  have hsq : ((x : ℝ) / (y : ℝ)) ^ 2 = 3 := by
    rw [div_pow]
    rw [div_eq_iff (by positivity)]
    exact_mod_cast h
  have : Real.sqrt 3 = |(x : ℝ) / (y : ℝ)| := by
    rw [← hsq, Real.sqrt_sq_eq_abs]
  rw [this]
  push_cast
  rw [abs_div]

theorem inormSq_nonneg (u : IPoint) : 0 ≤ inormSq u := by
  rw [inormSq]
  positivity

theorem lagrange_ident (u v : IPoint) :
    inormSq u * inormSq v = idot u v ^ 2 + icross u v ^ 2 := by
  rcases u with ⟨u1, u2⟩
  rcases v with ⟨v1, v2⟩
  simp only [inormSq, idot, icross]
  ring

/-- Interior angle exactly equal to 120 degrees is impossible at a vertex
of an integer-coordinate hull with nonzero neighbor vectors: it would make
cos = -1/2, hence cross^2 = 3 dot^2 in the integers, forcing both products
to vanish and a neighbor vector to be zero. -/
theorem interiorAngle_ne_120 (p1 p2 p3 : IPoint)
    (h1 : inormSq (vsub p1 p2) ≠ 0) (h2 : inormSq (vsub p3 p2) ≠ 0) :
    interiorAngleDeg p1 p2 p3 ≠ 120 := by
  intro h120
  have hpi := Real.pi_pos
  have ha : (0 : ℝ) < ((inormSq (vsub p1 p2) : ℤ) : ℝ) := by
    have := lt_of_le_of_ne (inormSq_nonneg (vsub p1 p2)) (Ne.symm h1)
    exact_mod_cast this
  have hb : (0 : ℝ) < ((inormSq (vsub p3 p2) : ℤ) : ℝ) := by
    have := lt_of_le_of_ne (inormSq_nonneg (vsub p3 p2)) (Ne.symm h2)
    exact_mod_cast this
  have hsab : (0 : ℝ) < Real.sqrt ((inormSq (vsub p1 p2) : ℤ) : ℝ)
      * Real.sqrt ((inormSq (vsub p3 p2) : ℤ) : ℝ) :=
    mul_pos (Real.sqrt_pos.mpr ha) (Real.sqrt_pos.mpr hb)
  have hclip_lo : -1 ≤ clipCos (interiorCos p1 p2 p3) := by
    rw [clipCos]
    exact le_min (by norm_num) (le_max_left _ _)
  have hclip_hi : clipCos (interiorCos p1 p2 p3) ≤ 1 := min_le_left _ _
  have harc : Real.arccos (clipCos (interiorCos p1 p2 p3))
      = 2 * Real.pi / 3 := by
    rw [interiorAngleDeg] at h120
    have h180 : (180 : ℝ) / Real.pi ≠ 0 := by positivity
    field_simp at h120
    linarith
  have hcosval : Real.cos (2 * Real.pi / 3) = -(1 / 2) := by
    have heq : 2 * Real.pi / 3 = Real.pi - Real.pi / 3 := by ring
    rw [heq, Real.cos_pi_sub, Real.cos_pi_div_three]
  have hclipval : clipCos (interiorCos p1 p2 p3) = -(1 / 2) := by
    have := Real.cos_arccos hclip_lo hclip_hi
    rw [harc, hcosval] at this
    exact this.symm
  have hcval : interiorCos p1 p2 p3 = -(1 / 2) := by
    rw [clipCos] at hclipval
    rcases le_or_lt (interiorCos p1 p2 p3) (-1) with hle | hgt
    · rw [max_eq_left hle] at hclipval
      norm_num at hclipval
    · rw [max_eq_right (le_of_lt hgt)] at hclipval
      rcases le_or_lt 1 (interiorCos p1 p2 p3) with hge | hlt
      · rw [min_eq_left hge] at hclipval
        norm_num at hclipval
      · rw [min_eq_right (le_of_lt hlt)] at hclipval
        exact hclipval
  rw [interiorCos, div_eq_iff (ne_of_gt hsab)] at hcval
  have hsquared : ((idot (vsub p1 p2) (vsub p3 p2) : ℤ) : ℝ) ^ 2
      = (1 / 4) * (((inormSq (vsub p1 p2) : ℤ) : ℝ)
          * ((inormSq (vsub p3 p2) : ℤ) : ℝ)) := by
    rw [hcval]
    rw [mul_pow, mul_pow]
    rw [Real.sq_sqrt (le_of_lt ha), Real.sq_sqrt (le_of_lt hb)]
    ring
  have hZ : 4 * idot (vsub p1 p2) (vsub p3 p2) ^ 2
      = inormSq (vsub p1 p2) * inormSq (vsub p3 p2) := by
    have : (4 : ℝ) * ((idot (vsub p1 p2) (vsub p3 p2) : ℤ) : ℝ) ^ 2
        = ((inormSq (vsub p1 p2) : ℤ) : ℝ) * ((inormSq (vsub p3 p2) : ℤ) : ℝ) := by
      rw [hsquared]; ring
    exact_mod_cast this
  rw [lagrange_ident] at hZ
  have hcross : icross (vsub p1 p2) (vsub p3 p2) ^ 2
      = 3 * idot (vsub p1 p2) (vsub p3 p2) ^ 2 := by linarith
  have hdot0 : idot (vsub p1 p2) (vsub p3 p2) = 0 :=
    int_sq_eq_three_sq _ _ hcross
  rw [hdot0] at hcross
  simp only [ne_eq, OfNat.ofNat_ne_zero, not_false_eq_true, zero_pow,
    mul_zero, pow_eq_zero_iff] at hcross
  have hZ0 : inormSq (vsub p1 p2) * inormSq (vsub p3 p2) = 0 := by
    rw [lagrange_ident, hdot0, hcross]
    ring
  rcases mul_eq_zero.mp hZ0 with hz | hz
  · exact h1 hz
  · exact h2 hz

/-- C6. For a boundary with at least three hull points, the convex-hull
strategy selects as tip a hull vertex whose interior angle is minimal
among all valid vertices whenever some valid vertex has interior angle
below the 120 degrees sharpness threshold, and returns the heading
(90 - mathAngle) mod 360 from the contour centroid to that tip; otherwise
it falls back to the furthest-point-from-centroid heuristic, whose result
is the same heading formula applied to a hull point of maximal distance
from the centroid. An interior angle exactly equal to 120 degrees cannot
occur on integer pixel coordinates, so the below-threshold reading of the
spec and the not-above-threshold test of the source agree. -/
theorem convex_hull_tip_selection (contour hull : List IPoint)
    (h3 : 3 ≤ hull.length) (hm : shoelaceZ contour ≠ 0) :
    ((∃ i < hull.length, validAt hull i ∧ angleAt hull i < 120) →
        ∃ j < hull.length, validAt hull j
          ∧ (∀ i < hull.length, validAt hull i →
              angleAt hull j ≤ angleAt hull i)
          ∧ dirConvexHull contour hull true
              = some (gameAngleFrom (cxOf contour) (cyOf contour)
                  (hullP2 hull j)))
      ∧ ((¬ ∃ i < hull.length, validAt hull i ∧ angleAt hull i < 120) →
          dirConvexHull contour hull true
            = dirFurthestPoint hull (cxOf contour) (cyOf contour))
      ∧ (∀ g, dirFurthestPoint hull (cxOf contour) (cyOf contour) = some g →
          ∃ tp ∈ hull,
            (∀ u ∈ hull, distSqQ (cxOf contour) (cyOf contour) u
                ≤ distSqQ (cxOf contour) (cyOf contour) tp)
              ∧ g = gameAngleFrom (cxOf contour) (cyOf contour) tp) := by
  have hm00 : m00Q contour ≠ 0 := by
    rw [m00Q]
    intro hz
    apply hm
    have : (shoelaceZ contour : ℚ) = 0 := by
      field_simp at hz
      exact_mod_cast hz
    exact_mod_cast this
  have hunfold : dirConvexHull contour hull true
      = match minAngleFold hull with
        | none => dirFurthestPoint hull (cxOf contour) (cyOf contour)
        | some (m, tip) =>
          if 120 < m then dirFurthestPoint hull (cxOf contour) (cyOf contour)
          else some (gameAngleFrom (cxOf contour) (cyOf contour) tip) := by
    rw [dirConvexHull, if_neg hm00, if_neg (not_lt.mpr h3)]
    norm_num
  refine ⟨?_, ?_, ?_⟩
  · rintro ⟨i0, hi0n, hi0v, hi0a⟩
    cases heq : minAngleFold hull with
    | none =>
      exfalso
      obtain ⟨_, hall⟩ := minAngleGo_none hull (List.range hull.length) none heq
      exact hall i0 (List.mem_range.mpr hi0n) hi0v
    | some p =>
      rcases p with ⟨m, tp⟩
      obtain ⟨horig, hmin, _⟩ :=
        minAngleGo_some hull (List.range hull.length) none m tp heq
      rcases horig with habs | ⟨j, hjmem, hjv, hjm, hjtp⟩
      · simp at habs
      · have hjn : j < hull.length := List.mem_range.mp hjmem
        refine ⟨j, hjn, hjv, ?_, ?_⟩
        · intro i hin hiv
          rw [← hjm]
          exact hmin i (List.mem_range.mpr hin) hiv
        · have hnot : ¬ (120 < m) := by
            refine not_lt.mpr ?_
            calc m ≤ angleAt hull i0 := hmin i0 (List.mem_range.mpr hi0n) hi0v
              _ ≤ 120 := le_of_lt hi0a
          rw [hunfold, heq]
          simp only [if_neg hnot, hjtp]
  · intro hne
    cases heq : minAngleFold hull with
    | none => rw [hunfold, heq]
    | some p =>
      rcases p with ⟨m, tp⟩
      obtain ⟨horig, _, _⟩ :=
        minAngleGo_some hull (List.range hull.length) none m tp heq
      rcases horig with habs | ⟨j, hjmem, hjv, hjm, _⟩
      · simp at habs
      · have hjn : j < hull.length := List.mem_range.mp hjmem
        have hge : (120 : ℝ) ≤ m := by
          by_contra hlt
          exact hne ⟨j, hjn, hjv, by rw [← hjm]; exact not_le.mp hlt⟩
        have hneq : m ≠ 120 := by
          rw [hjm]
          exact interiorAngle_ne_120 _ _ _ hjv.1 hjv.2
        have hgt : (120 : ℝ) < m := lt_of_le_of_ne hge (Ne.symm hneq)
        rw [hunfold, heq]
        simp only [if_pos hgt]
  · intro g hg
    exact dirFurthestPoint_spec hull (cxOf contour) (cyOf contour) g hg

theorem convex_hull_tip_selection_witness :
    (3 ≤ ([((0 : ℤ), (0 : ℤ)), (2, 0), (0, 2)] : List IPoint).length
        ∧ shoelaceZ [((0 : ℤ), (0 : ℤ)), (2, 0), (0, 2)] ≠ 0)
      ∧ ((¬ ∃ i < ([((0 : ℤ), (0 : ℤ)), (2, 0), (0, 2)] : List IPoint).length,
            validAt [((0 : ℤ), (0 : ℤ)), (2, 0), (0, 2)] i
              ∧ angleAt [((0 : ℤ), (0 : ℤ)), (2, 0), (0, 2)] i < 120) →
          dirConvexHull [((0 : ℤ), (0 : ℤ)), (2, 0), (0, 2)]
              [((0 : ℤ), (0 : ℤ)), (2, 0), (0, 2)] true
            = dirFurthestPoint [((0 : ℤ), (0 : ℤ)), (2, 0), (0, 2)]
                (cxOf [((0 : ℤ), (0 : ℤ)), (2, 0), (0, 2)])
                (cyOf [((0 : ℤ), (0 : ℤ)), (2, 0), (0, 2)])) := by
  refine ⟨⟨by decide, by decide⟩, ?_⟩
  exact (convex_hull_tip_selection
    [((0 : ℤ), (0 : ℤ)), (2, 0), (0, 2)]
    [((0 : ℤ), (0 : ℤ)), (2, 0), (0, 2)]
    (by decide) (by decide)).2.1

/-- C7. Corrected form. The convex-hull strategy returns null (never an
exception) for every degenerate boundary: an empty or zero-area contour
(m00 = 0, which covers empty and 2-point boundaries) or fewer than 3 hull
points. The min-area-rect and PCA strategies have no such guard; in
particular the PCA strategy returns a numeric angle for a 2-point
boundary (see the counterexample). -/
theorem convex_hull_null_on_degenerate (contour hull : List IPoint)
    (dOk : Bool) (h : shoelaceZ contour = 0 ∨ hull.length < 3) :
    dirConvexHull contour hull dOk = none := by
  by_cases hm : m00Q contour = 0
  · rw [dirConvexHull, if_pos hm]
  · rcases h with hz | hlen
    · exfalso
      apply hm
      rw [m00Q, hz]
      norm_num
    · rw [dirConvexHull, if_neg hm, if_pos hlen]

theorem convex_hull_null_on_degenerate_witness :
    (shoelaceZ [((0 : ℤ), (0 : ℤ)), (1, 0)] = 0
        ∨ ([] : List IPoint).length < 3)
      ∧ dirConvexHull [((0 : ℤ), (0 : ℤ)), (1, 0)] [] true = none := by
  refine ⟨Or.inl (by decide), ?_⟩
  exact convex_hull_null_on_degenerate [((0 : ℤ), (0 : ℤ)), (1, 0)] [] true
    (Or.inl (by decide))

/-- C7. Counterexample to the claim as stated: the PCA strategy, given the
two-point boundary [(0,0), (2,0)], does not return null; it computes the
mean (1,0), the ddof-1 covariance matrix [[2,0],[0,0]], the principal axis
(1,0) and returns the compass angle 90. -/
theorem pca_returns_angle_for_two_point_boundary :
    dirPCA [((0 : ℤ), (0 : ℤ)), (2, 0)] = some 90
      ∧ dirPCA [((0 : ℤ), (0 : ℤ)), (2, 0)] ≠ none := by
  have h90 : dirPCA [((0 : ℤ), (0 : ℤ)), (2, 0)] = some 90 := by
    have h2 : atan2Deg 0 1 = 0 := by
      rw [atan2Deg]
      have h : (⟨1, 0⟩ : ℂ) = 1 := rfl
      rw [h, Complex.arg_one, zero_mul]
    have heig : eigMainAxis 2 0 0 = (1, 0) := by
      rw [eigMainAxis, if_pos rfl, if_pos (by norm_num : (0 : ℚ) ≤ 2)]
    have h3 : fmod360 90 = 90 := by
      rw [fmod360]
      have : ⌊(90 : ℝ) / 360⌋ = 0 := by
        rw [Int.floor_eq_zero_iff]
        constructor <;> norm_num
      rw [this]
      norm_num
    rw [dirPCA]
    norm_num
    rw [heig]
    norm_num
    rw [h2]
    norm_num
    rw [h3]
  exact ⟨h90, by rw [h90]; simp⟩

/-- Truncation of a real toward zero (Python int() on a float), the
real-argument twin of pytrunc used where the arrow code converts float
results. -/
noncomputable def pytruncR (x : ℝ) : ℤ := if 0 ≤ x then ⌊x⌋ else -⌊-x⌋

/-- Real-argument twin of angleToCardinal, applied by the arrow detector
to the float heading before storing the compass label. -/
noncomputable def angleToCardinalR (angle : ℝ) : String :=
  cardinalDirections.getD ((pytruncR ((angle + 45 / 2) / 45)) % 8).toNat "N"

/-- Left edge of cv2.boundingRect of a contour. -/
def brX (c : List IPoint) : ℤ := ((c.map Prod.fst).min?).getD 0

/-- Top edge of cv2.boundingRect of a contour. -/
def brY (c : List IPoint) : ℤ := ((c.map Prod.snd).min?).getD 0

/-- Width of cv2.boundingRect of a contour (pixel convention max-min+1). -/
def brW (c : List IPoint) : ℤ :=
  ((c.map Prod.fst).max?).getD 0 - brX c + 1

/-- Height of cv2.boundingRect of a contour. -/
def brH (c : List IPoint) : ℤ :=
  ((c.map Prod.snd).max?).getD 0 - brY c + 1

/-- Python branch `if angle < 0: angle += 360` of HSVArrowDetector.detect. -/
noncomputable def adjustAngle (a : ℝ) : ℝ := if a < 0 then a + 360 else a

/-- Arrow detection record of HSVArrowDetector.detect, flattening the
nested result dictionary (found=True records only; found=False is the
none case of the Option result). -/
structure ArrowResult where
  x : ℤ
  y : ℤ
  angle : ℝ
  cardinal : String
  methodName : String
  area : ℤ
  width : ℤ
  height : ℤ
  aspect_ratio : ℚ
  confidence : ℚ
  contour : List IPoint

/-- Best-arrow record built by HSVArrowDetector.detect for a qualifying
contour with direction angle ang. -/
noncomputable def mkArrowResult (methodName : String) (c : List IPoint)
    (ang : ℝ) : ArrowResult :=
  { x := pytrunc (m10Q c / m00Q c)
    y := pytrunc (m01Q c / m00Q c)
    angle := adjustAngle ang
    cardinal := angleToCardinalR (adjustAngle ang)
    methodName := methodName
    area := pytrunc (contourArea c)
    width := brW c
    height := brH c
    aspect_ratio := if 0 < brH c then (brW c : ℚ) / (brH c : ℚ) else 0
    confidence := min 1 (contourArea c / 2000)
    contour := c }

/-- Qualification of a contour in HSVArrowDetector.detect: it passes the
area filter, has a computable centroid (m00 nonzero) and a computable
direction. -/
def qualifiesArrow (dir : List IPoint → Option ℝ) (minArea maxArea : ℚ)
    (c : List IPoint) : Bool :=
  decide (minArea ≤ contourArea c ∧ contourArea c ≤ maxArea ∧ m00Q c ≠ 0)
    && (dir c).isSome

/-- Best-so-far update of the detect loop on the contour level: replace
the running best exactly when the score (the area) strictly exceeds the
running maximum score. -/
def arrowStep (st : Option (List IPoint) × ℚ) (c : List IPoint) :
    Option (List IPoint) × ℚ :=
  if st.2 < contourArea c then (some c, contourArea c) else st

/-- Contour loop of HSVArrowDetector.detect: area filter, centroid check,
direction computation (the strategy dispatched by _calculate_direction is
a function input), and the strict best-score update with max_score
starting at 0. -/
noncomputable def detectArrowLoop (dir : List IPoint → Option ℝ)
    (methodName : String) (minArea maxArea : ℚ) :
    List (List IPoint) → Option ArrowResult → ℚ → Option ArrowResult
  | [], best, _ => best
  | c :: rest, best, maxScore =>
    if contourArea c < minArea ∨ maxArea < contourArea c then
      detectArrowLoop dir methodName minArea maxArea rest best maxScore
    else if m00Q c = 0 then
      detectArrowLoop dir methodName minArea maxArea rest best maxScore
    else
      match dir c with
      | none => detectArrowLoop dir methodName minArea maxArea rest best maxScore
      | some ang =>
        if maxScore < contourArea c then
          detectArrowLoop dir methodName minArea maxArea rest
            (some (mkArrowResult methodName c ang)) (contourArea c)
        else detectArrowLoop dir methodName minArea maxArea rest best maxScore

/-- HSVArrowDetector.detect restricted to its contour-selection core:
none embeds the found=False result. -/
noncomputable def detectArrow (dir : List IPoint → Option ℝ)
    (methodName : String) (minArea maxArea : ℚ)
    (contours : List (List IPoint)) : Option ArrowResult :=
  detectArrowLoop dir methodName minArea maxArea contours none 0

/-- Specification-side selection following the claim: among the contours
that qualify, the first one of maximal area (none when no contour
qualifies). -/
noncomputable def specBestContour (dir : List IPoint → Option ℝ)
    (minArea maxArea : ℚ) (contours : List (List IPoint)) :
    Option (List IPoint) :=
  let qs := contours.filter (qualifiesArrow dir minArea maxArea)
  qs.find? (fun c => qs.all (fun d => decide (contourArea d ≤ contourArea c)))

theorem contourArea_pos_of_qualifies (dir : List IPoint → Option ℝ)
    (minArea maxArea : ℚ) (c : List IPoint)
    (h : qualifiesArrow dir minArea maxArea c = true) :
    0 < contourArea c := by
  rw [qualifiesArrow, Bool.and_eq_true, decide_eq_true_eq] at h
  have hm : m00Q c ≠ 0 := h.1.2.2
  rw [m00Q] at hm
  have hz : (shoelaceZ c : ℚ) ≠ 0 := by
    intro h0
    exact hm (by rw [h0]; norm_num)
  rw [contourArea]
  have : 0 < |(shoelaceZ c : ℚ)| := abs_pos.mpr hz
  linarith

theorem detectArrowLoop_eq_fold (dir : List IPoint → Option ℝ)
    (mn : String) (minArea maxArea : ℚ) :
    ∀ (cs : List (List IPoint)) (b : Option (List IPoint)) (ms : ℚ),
      detectArrowLoop dir mn minArea maxArea cs
          (b.map (fun c => mkArrowResult mn c ((dir c).getD 0))) ms
        = (((cs.filter (qualifiesArrow dir minArea maxArea)).foldl arrowStep
            (b, ms)).1).map (fun c => mkArrowResult mn c ((dir c).getD 0)) := by
  intro cs
  induction cs with
  | nil => intro b ms; simp [detectArrowLoop]
  | cons c rest ih =>
    intro b ms
    rw [detectArrowLoop]
    by_cases harea : contourArea c < minArea ∨ maxArea < contourArea c
    · have hq : qualifiesArrow dir minArea maxArea c = false := by
        rw [qualifiesArrow]
        rcases harea with h1 | h2
        · simp [not_le.mpr h1]
        · simp [not_le.mpr h2]
      rw [if_pos harea, List.filter_cons_of_neg (by simp [hq]), ih]
    · rw [if_neg harea]
      push_neg at harea
      by_cases hm : m00Q c = 0
      · have hq : qualifiesArrow dir minArea maxArea c = false := by
          simp [qualifiesArrow, hm]
        rw [if_pos hm, List.filter_cons_of_neg (by simp [hq]), ih]
      · rw [if_neg hm]
        cases hd : dir c with
        | none =>
          have hq : qualifiesArrow dir minArea maxArea c = false := by
            simp [qualifiesArrow, hd]
          rw [List.filter_cons_of_neg (by simp [hq]), ih]
        | some ang =>
          have hq : qualifiesArrow dir minArea maxArea c = true := by
            simp [qualifiesArrow, hd, harea.1, harea.2, hm]
          rw [List.filter_cons_of_pos (by simp [hq]), List.foldl_cons]
          simp only []
          by_cases hs : ms < contourArea c
          · have hstep : arrowStep (b, ms) c = (some c, contourArea c) := by
              rw [arrowStep, if_pos hs]
            rw [if_pos hs, hstep]
            have := ih (some c) (contourArea c)
            simp only [Option.map_some'] at this
            rw [← this, hd]
            rfl
          · have hstep : arrowStep (b, ms) c = (b, ms) := by
              rw [arrowStep, if_neg hs]
            rw [if_neg hs, hstep, ih]

theorem arrowFold_keep :
    ∀ (qs : List (List IPoint)) (st : Option (List IPoint) × ℚ),
      (∀ d ∈ qs, contourArea d ≤ st.2) → qs.foldl arrowStep st = st := by
  intro qs
  induction qs with
  | nil => intro st _; simp
  | cons d qs ih =>
    intro st hall
    rw [List.foldl_cons]
    have hd : contourArea d ≤ st.2 := hall d (List.mem_cons_self d qs)
    have hstep : arrowStep st d = st := by
      rw [arrowStep, if_neg (not_lt.mpr hd)]
    rw [hstep]
    exact ih st (fun e he => hall e (List.mem_cons_of_mem d he))

theorem arrowFold_reset :
    ∀ (qs : List (List IPoint)),
      (∀ d ∈ qs, 0 < contourArea d) →
      ∀ (b : Option (List IPoint)) (m : ℚ),
        (∃ d ∈ qs, m < contourArea d) →
          qs.foldl arrowStep (b, m) = qs.foldl arrowStep (none, 0) := by
  intro qs
  induction qs with
  | nil =>
    intro _ b m hbeat
    obtain ⟨d, hd, _⟩ := hbeat
    simp at hd
  | cons d qs ih =>
    intro hpos b m hbeat
    rw [List.foldl_cons, List.foldl_cons]
    have hd0 : 0 < contourArea d := hpos d (List.mem_cons_self d qs)
    have hstep0 : arrowStep (none, 0) d = (some d, contourArea d) := by
      rw [arrowStep, if_pos hd0]
    rw [hstep0]
    by_cases hm : m < contourArea d
    · have hstep1 : arrowStep (b, m) d = (some d, contourArea d) := by
        rw [arrowStep, if_pos hm]
      rw [hstep1]
    · have hstep1 : arrowStep (b, m) d = (b, m) := by
        rw [arrowStep, if_neg hm]
      rw [hstep1]
      obtain ⟨d0, hd0mem, hd0beat⟩ := hbeat
      have hd0qs : d0 ∈ qs := by
        rcases List.mem_cons.mp hd0mem with rfl | h
        · exact absurd hd0beat hm
        · exact h
      have hposqs : ∀ e ∈ qs, 0 < contourArea e :=
        fun e he => hpos e (List.mem_cons_of_mem d he)
      rw [ih hposqs b m ⟨d0, hd0qs, hd0beat⟩,
        ih hposqs (some d) (contourArea d)
          ⟨d0, hd0qs, lt_of_le_of_lt (not_lt.mp hm) hd0beat⟩]

theorem find?_congr_mem {α : Type} :
    ∀ (l : List α) (p q : α → Bool),
      (∀ x ∈ l, p x = q x) → l.find? p = l.find? q := by
  intro l
  induction l with
  | nil => intro p q _; simp
  | cons a l ih =>
    intro p q hpq
    rw [List.find?_cons, List.find?_cons,
      hpq a (List.mem_cons_self a l)]
    cases hqa : q a with
    | true => rfl
    | false => exact ih p q (fun x hx => hpq x (List.mem_cons_of_mem a hx))

theorem arrowFold_eq_find? :
    ∀ (qs : List (List IPoint)),
      (∀ c ∈ qs, 0 < contourArea c) →
        qs.foldl arrowStep (none, 0)
          = match qs.find? (fun c => qs.all
              (fun d => decide (contourArea d ≤ contourArea c))) with
            | none => (none, 0)
            | some c => (some c, contourArea c) := by
  intro qs
  induction qs with
  | nil => intro _; simp
  | cons c rest ih =>
    intro hpos
    have hc0 : 0 < contourArea c := hpos c (List.mem_cons_self c rest)
    have hposrest : ∀ e ∈ rest, 0 < contourArea e :=
      fun e he => hpos e (List.mem_cons_of_mem c he)
    rw [List.foldl_cons]
    have hstep : arrowStep (none, 0) c = (some c, contourArea c) := by
      rw [arrowStep, if_pos hc0]
    rw [hstep]
    by_cases hmax : ∀ d ∈ rest, contourArea d ≤ contourArea c
    · have hfind : (c :: rest).find? (fun x => (c :: rest).all
          (fun d => decide (contourArea d ≤ contourArea x))) = some c := by
        rw [List.find?_cons]
        have : ((c :: rest).all
            (fun d => decide (contourArea d ≤ contourArea c))) = true := by
          rw [List.all_eq_true]
          intro d hd
          rcases List.mem_cons.mp hd with rfl | hd2
          · simp
          · simp [hmax d hd2]
        rw [this]
      rw [hfind, arrowFold_keep rest (some c, contourArea c) (by simpa using hmax)]
    · push_neg at hmax
      obtain ⟨d0, hd0, hbeat⟩ := hmax
      have hfc : ((c :: rest).all
          (fun d => decide (contourArea d ≤ contourArea c))) = false := by
        rw [List.all_eq_false]
        exact ⟨d0, List.mem_cons_of_mem c hd0, by simp [not_le.mpr hbeat]⟩
      have hfind : (c :: rest).find? (fun x => (c :: rest).all
          (fun d => decide (contourArea d ≤ contourArea x)))
            = rest.find? (fun x => rest.all
              (fun d => decide (contourArea d ≤ contourArea x))) := by
        rw [List.find?_cons, hfc]
        refine find?_congr_mem rest _ _ ?_
        intro x hx
        rcases hq : (rest.all (fun d => decide (contourArea d ≤ contourArea x)))
          with hfalse | htrue
        · rw [List.all_eq_false] at hq
          obtain ⟨e, he, hne⟩ := hq
          rw [List.all_eq_false]
          exact ⟨e, List.mem_cons_of_mem c he, hne⟩
        · rw [List.all_eq_true] at hq
          have hcx : contourArea c ≤ contourArea x :=
            le_trans (le_of_lt hbeat) (by simpa using hq d0 hd0)
          rw [List.all_eq_true]
          intro e he
          rcases List.mem_cons.mp he with rfl | he2
          · simp [hcx]
          · exact hq e he2
      rw [hfind,
        arrowFold_reset rest hposrest (some c) (contourArea c) ⟨d0, hd0, hbeat⟩,
        ih hposrest]

/-- C10. HSVArrowDetector.detect returns exactly the first qualifying
contour of maximal area, packaged as the single best-arrow record (the
score of a candidate is its area), and returns the found=False result
(none) precisely when no contour passes the area filter with a computable
centroid and direction; the return type carries at most one arrow. -/
theorem detect_returns_largest_qualifying (dir : List IPoint → Option ℝ)
    (mn : String) (minArea maxArea : ℚ) (contours : List (List IPoint)) :
    detectArrow dir mn minArea maxArea contours
      = (specBestContour dir minArea maxArea contours).map
          (fun c => mkArrowResult mn c ((dir c).getD 0)) := by
  have hpos : ∀ c ∈ contours.filter (qualifiesArrow dir minArea maxArea),
      0 < contourArea c := by
    intro c hc
    exact contourArea_pos_of_qualifies dir minArea maxArea c
      (List.of_mem_filter hc)
  have h0 := detectArrowLoop_eq_fold dir mn minArea maxArea contours none 0
  simp only [Option.map_none'] at h0
  rw [detectArrow, h0,
    arrowFold_eq_find? (contours.filter (qualifiesArrow dir minArea maxArea)) hpos,
    specBestContour]
  cases (contours.filter (qualifiesArrow dir minArea maxArea)).find?
      (fun c => (contours.filter (qualifiesArrow dir minArea maxArea)).all
        (fun d => decide (contourArea d ≤ contourArea c))) with
  | none => rfl
  | some c => rfl
